import Mathlib

/-!
Verification development for the Lit component documentation generator
(`src/parser.ts`, `src/type-utils.ts`, `src/markdown-generator.ts`,
`src/types.ts`).  The TypeScript sources are shallowly embedded: syntax
tree nodes become inductive values carrying exactly the data the parser
inspects, the mutable `MixinContext` becomes explicit state threading
(the in-progress key set is passed downward, the documentation cache is
threaded through results), and the recursive mixin resolution is given a
fuel parameter so that every definition is executable; a stabilisation
theorem shows the fuel is irrelevant beyond an explicit bound, which is
the termination statement for the original recursion.
-/

namespace LitDocs

/-! ## Documentation record types (from `src/types.ts` and the
`ClassDocParts` interface of `src/parser.ts`) -/

/-- Deprecation marker: the TypeScript side uses `boolean | string`
(`false` = not deprecated, `true` = deprecated without message). -/
inductive DepVal where
  | notDep
  | depTrue
  | depMsg (msg : String)
  deriving DecidableEq, Repr

/-- `SlotDocs` from `src/types.ts`. -/
structure SlotDocs where
  name : String
  description : Option String := none
  deriving DecidableEq, Repr

/-- `CssPropertyDocs` from `src/types.ts`.  `defaultVal` models the
`default` field (that spelling is not a legal field name in Lean). -/
structure CssPropertyDocs where
  name : String
  description : Option String := none
  defaultVal : Option String := none
  deriving DecidableEq, Repr

/-- `CssPartDocs` from `src/types.ts`. -/
structure CssPartDocs where
  name : String
  description : Option String := none
  deriving DecidableEq, Repr

/-- `PropertyDocs` from `src/types.ts`.  `attr` models the `attribute`
field, which is `string | undefined` there (`none` models `undefined`;
that spelling is a reserved word in Lean). -/
structure PropertyDocs where
  name : String
  attr : Option String := none
  description : Option String := none
  type : String
  defaultVal : Option String := none
  reflects : Option Bool := none
  state : Option Bool := none
  required : Bool := false
  deprecated : DepVal := .notDep
  deriving DecidableEq, Repr

/-- `EventDocs` from `src/types.ts`. -/
structure EventDocs where
  name : String
  description : Option String := none
  detail : Option String := none
  bubbles : Option Bool := none
  composed : Option Bool := none
  cancelable : Option Bool := none
  deprecated : DepVal := .notDep
  deriving DecidableEq, Repr

/-- `ParameterDocs` from `src/types.ts`. -/
structure ParameterDocs where
  name : String
  type : String
  description : Option String := none
  optional : Bool := false
  defaultVal : Option String := none
  deriving DecidableEq, Repr

/-- The `returns` sub-record of `MethodDocs`. -/
structure ReturnDocs where
  type : String
  description : Option String := none
  deriving DecidableEq, Repr

/-- `MethodDocs` from `src/types.ts`.  The `async` field is
`boolean | undefined` in TypeScript. -/
structure MethodDocs where
  name : String
  description : Option String := none
  parameters : List ParameterDocs := []
  returns : Option ReturnDocs := none
  isAsync : Bool := false
  deprecated : DepVal := .notDep
  deriving DecidableEq, Repr

/-- `ClassDocParts` from `src/parser.ts`: the mergeable documentation
fragment of one class-like declaration. -/
structure ClassDocParts where
  description : Option String := none
  usage : Option (List String) := none
  dependencies : Option (List String) := none
  slots : List SlotDocs := []
  cssProperties : List CssPropertyDocs := []
  cssParts : List CssPartDocs := []
  properties : List PropertyDocs := []
  events : List EventDocs := []
  methods : List MethodDocs := []
  deriving DecidableEq, Repr

/-- `LitComponentDocs` from `src/types.ts`. -/
structure LitComponentDocs where
  className : String
  tagName : String
  description : Option String := none
  usage : Option (List String) := none
  properties : List PropertyDocs := []
  events : List EventDocs := []
  methods : List MethodDocs := []
  slots : List SlotDocs := []
  cssProperties : List CssPropertyDocs := []
  cssParts : List CssPartDocs := []
  dependencies : Option (List String) := none
  filePath : String
  deriving DecidableEq, Repr

/-! ## Expression model

The parser inspects TypeScript expressions only through a handful of
predicates (`isIdentifier`, `isPropertyAccessExpression`,
`isCallExpression`, `isStringLiteral`, `isObjectLiteralExpression`,
literal kind tests, `isAsExpression` / `isTypeAssertionExpression`,
`isParenthesizedExpression`) and through `getText()`.  `PExpr` carries
exactly that structure; `getText` is a canonical printer
(whitespace-normalised source text).  `PArgs` and `OProps` are inlined
list types so that all recursions stay structural.  An `OProps.oother`
entry models an object-literal member that is not a
`PropertyAssignment` (shorthand, spread, method) and is skipped by
every extractor, exactly as the `ts.isPropertyAssignment` guards do. -/

mutual
inductive PExpr where
  | ident (n : String)
  | propAcc (text : String)
  | strLit (s : String)
  | templateLit (s : String)
  | numLit (text : String)
  | boolLit (b : Bool)
  | nullLit
  | arrayLit (text : String)
  | objLit (props : OProps)
  | preMinusNum (text : String)
  | callE (callee : PExpr) (args : PArgs)
  | asE (e : PExpr) (ty : String)
  | parenE (e : PExpr)
  | otherE (text : String)
  deriving DecidableEq, Repr
inductive PArgs where
  | nil
  | cons (head : PExpr) (tail : PArgs)
  deriving DecidableEq, Repr
inductive OProps where
  | onil
  | oassign (name : String) (value : PExpr) (tail : OProps)
  | oother (tail : OProps)
  deriving DecidableEq, Repr
end

def PArgs.toList : PArgs → List PExpr
  | .nil => []
  | .cons h t => h :: t.toList

def PArgs.head? : PArgs → Option PExpr
  | .nil => none
  | .cons h _ => some h

def PArgs.second? : PArgs → Option PExpr
  | .nil => none
  | .cons _ .nil => none
  | .cons _ (.cons x _) => some x

def strJoin (sep : String) : List String → String
  | [] => ""
  | [x] => x
  | x :: xs => x ++ sep ++ strJoin sep xs

mutual
/-- Canonical `getText()` for the embedded expressions
(whitespace-normalised rendering of the source text). -/
def getText : PExpr → String
  | .ident n => n
  | .propAcc t => t
  | .strLit s => "'" ++ s ++ "'"
  | .templateLit s => "`" ++ s ++ "`"
  | .numLit t => t
  | .boolLit true => "true"
  | .boolLit false => "false"
  | .nullLit => "null"
  | .arrayLit t => t
  | .objLit props => "\x7b " ++ strJoin ", " (getTextProps props) ++ " \x7d"
  | .preMinusNum t => "-" ++ t
  | .callE c args => getText c ++ "(" ++ strJoin ", " (getTextArgs args) ++ ")"
  | .asE e ty => getText e ++ " as " ++ ty
  | .parenE e => "(" ++ getText e ++ ")"
  | .otherE t => t
def getTextArgs : PArgs → List String
  | .nil => []
  | .cons h t => getText h :: getTextArgs t
def getTextProps : OProps → List String
  | .onil => []
  | .oassign n v t => (n ++ ": " ++ getText v) :: getTextProps t
  | .oother t => "..." :: getTextProps t
end

/-! ## Syntax-node model

A `Decorator` is inspected only as: is its expression a call, what is
the text of the callee, and what are the arguments.  A class member is
a property declaration, a method declaration, or anything else.
JSDoc comments are represented by their parsed content (`JsDocInfo`
matches the return type of `parseJsDoc` in `src/parser.ts`); the tag
grammar itself is orthogonal to the claims.  The `eventCalls` field of
a class collects, in traversal order, every `new`-expression passed to
a `dispatchEvent` call inside the member bodies — the data the
recursive walk of `extractEvents` feeds on. -/

inductive Decorator where
  | callDec (callee : PExpr) (args : PArgs)
  | otherDec
  deriving DecidableEq, Repr

/-- Result of `parseJsDoc` (`src/parser.ts`). -/
structure JsDocInfo where
  description : Option String := none
  params : List (String × String) := []
  returns : Option String := none
  required : Bool := false
  deprecated : DepVal := .notDep
  slots : List SlotDocs := []
  cssProperties : List CssPropertyDocs := []
  cssParts : List CssPartDocs := []
  usage : Option (List String) := none
  dependencies : Option (List String) := none
  deriving DecidableEq, Repr

structure ParamDecl where
  name : String
  typeText : Option String := none
  initText : Option String := none
  questionTok : Bool := false
  deriving DecidableEq, Repr

structure PropertyDecl where
  name : String
  isPrivate : Bool := false
  isStatic : Bool := false
  decorators : List Decorator := []
  typeText : Option String := none
  initializer : Option PExpr := none
  jsDoc : JsDocInfo := {}
  deriving DecidableEq, Repr

structure MethodDecl where
  name : String
  isPrivate : Bool := false
  isAsync : Bool := false
  params : List ParamDecl := []
  retType : Option String := none
  jsDoc : JsDocInfo := {}
  deriving DecidableEq, Repr

inductive ClassMember where
  | propM (p : PropertyDecl)
  | methodM (m : MethodDecl)
  | otherM
  deriving DecidableEq, Repr

/-- A `new CustomEvent(...)` expression reaching `dispatchEvent`. -/
structure NewEvt where
  args : PArgs := .nil
  typeArgs : List String := []
  deriving DecidableEq, Repr

/-- A class-like declaration (`ts.ClassLikeDeclarationBase`), restricted
to the data the parser reads: name, decorators, the expressions of the
extends-clause types, the members, the attached JSDoc, and the dispatch
calls found in member bodies. -/
structure ClassDecl where
  name : Option String := none
  decorators : List Decorator := []
  heritage : List PExpr := []
  members : List ClassMember := []
  jsDoc : JsDocInfo := {}
  eventCalls : List NewEvt := []
  deriving DecidableEq, Repr

/-! ## String helpers (JS semantics, over the character list) -/

/-- JS `needle` occurs in `hay` (`String.prototype.includes`). -/
def strContainsSub (hay needle : String) : Bool :=
  decide (needle.data <:+: hay.data)

/-- JS `String.prototype.startsWith`. -/
def strStarts (s pre : String) : Bool :=
  pre.data.isPrefixOf s.data

/-- Lowercase a character (ASCII, enough for identifiers and paths). -/
def lowerChar (c : Char) : Char :=
  if 'A' ≤ c ∧ c ≤ 'Z' then Char.ofNat (c.toNat + 32) else c

def isLowerAZ (c : Char) : Bool := 'a' ≤ c ∧ c ≤ 'z'
def isUpperAZ (c : Char) : Bool := 'A' ≤ c ∧ c ≤ 'Z'

def isWsChar (c : Char) : Bool :=
  c = ' ' ∨ c = '\t' ∨ c = '\n' ∨ c = '\r'

/-- `value.replace(/\s+/g, ' ')`: collapse every whitespace run to one
space.  The flag records whether the previous character was part of a
whitespace run already emitted as a single space. -/
def collapseWsGo : Bool → List Char → List Char
  | _, [] => []
  | prevWs, c :: rest =>
    if isWsChar c then
      if prevWs then collapseWsGo true rest
      else ' ' :: collapseWsGo true rest
    else c :: collapseWsGo false rest

def collapseWs (l : List Char) : List Char :=
  collapseWsGo false l

/-- JS `String.prototype.trim` (over the whitespace set used here). -/
def trimChars (l : List Char) : List Char :=
  ((l.dropWhile isWsChar).reverse.dropWhile isWsChar).reverse

/-! ## `extendsLitElement` (`src/parser.ts`)

The source iterates the heritage clauses with the `extends` token and
tests `typeName === 'LitElement' || typeName.includes('LitElement')` on
the `getText()` of each type expression.  `ClassDecl.heritage` already
holds exactly the extends-clause type expressions. -/

def extendsLitElement (node : ClassDecl) : Bool :=
  node.heritage.any fun ty =>
    let typeName := getText ty
    typeName = "LitElement" ∨ strContainsSub typeName "LitElement"

/-! ## `extractCustomElementTag` (`src/parser.ts`) -/

def extractCustomElementTag (node : ClassDecl) : Option String :=
  go node.decorators
where
  go : List Decorator → Option String
    | [] => none
    | .callDec callee args :: rest =>
      if getText callee = "customElement" then
        match args.head? with
        | some (.strLit s) => some s
        | _ => go rest
      else go rest
    | .otherDec :: rest => go rest

/-! ## `extractPropertyDecorator` (`src/parser.ts`) -/

/-- Return type of `extractPropertyDecorator`:
`{ attribute?: string; reflects?: boolean; state?: boolean }`. -/
structure DecoratorInfo where
  attr : Option String := none
  reflects : Option Bool := none
  state : Option Bool := none
  deriving DecidableEq, Repr

/-- The option-object scan of the `property` decorator:
`attribute: <string literal>` records the literal text,
`attribute: false` (matched on source text) resets it to `undefined`,
`reflect: true` (matched on source text) sets the reflect flag; any
other shapes leave the accumulator unchanged.  Later assignments
overwrite earlier ones, as the `forEach` does. -/
def propertyOptionsGo : OProps → Option String → Option Bool → DecoratorInfo
  | .onil, attr, reflects => { attr := attr, reflects := reflects }
  | .oassign propName init tail, attr, reflects =>
    if propName = "attribute" then
      match init with
      | .strLit s => propertyOptionsGo tail (some s) reflects
      | _ =>
        if getText init = "false" then propertyOptionsGo tail none reflects
        else propertyOptionsGo tail attr reflects
    else if propName = "reflect" ∧ getText init = "true" then
      propertyOptionsGo tail attr (some true)
    else propertyOptionsGo tail attr reflects
  | .oother tail, attr, reflects => propertyOptionsGo tail attr reflects

def extractPropertyDecorator (node : PropertyDecl) : Option DecoratorInfo :=
  go node.decorators
where
  go : List Decorator → Option DecoratorInfo
    | [] => none
    | .callDec callee args :: rest =>
      let decoratorName := getText callee
      if decoratorName = "state" then some { state := some true }
      else if decoratorName = "property" then
        match args.head? with
        | some (.objLit props) => some (propertyOptionsGo props none none)
        | _ => some {}
      else go rest
    | .otherDec :: rest => go rest

/-! ## `sanitizeDefaultValue` and `parseProperty` (`src/parser.ts`) -/

def sanitizeDefaultValue (value : String) : String :=
  let v := String.mk (trimChars (collapseWs value.data))
  let v := if v.data.length > 50 then String.mk (v.data.take 50) ++ "..." else v
  if strStarts v "css`" ∨ strStarts v "html`" then "(template)" else v

/-- `parseProperty`: private and static members are skipped, members
without a `property` / `state` decorator are skipped; the recorded type
is the source text of the explicit type annotation, else the string
`any` — no other inference happens on this path. -/
def parseProperty (node : PropertyDecl) : Option PropertyDocs :=
  if node.isPrivate then none
  else if node.isStatic then none
  else
    match extractPropertyDecorator node with
    | none => none
    | some decoratorInfo =>
      let jsDoc := node.jsDoc
      let type := match node.typeText with
        | some t => t
        | none => "any"
      let defaultValue := node.initializer.map fun i => sanitizeDefaultValue (getText i)
      some { name := node.name
             attr := decoratorInfo.attr
             description := jsDoc.description
             type := type
             defaultVal := defaultValue
             reflects := decoratorInfo.reflects
             state := decoratorInfo.state
             required := jsDoc.required
             deprecated := jsDoc.deprecated }

/-! ## `src/type-utils.ts`

These two functions exist in the repository but are imported nowhere:
`parseProperty` above never calls them. -/

/-- `/Constructor$/u` replacement. -/
def stripConstructorSuffix (s : String) : String :=
  if "Constructor".data.isSuffixOf s.data then
    String.mk (s.data.take (s.data.length - 11))
  else s

/-- `normalizeDecoratorTypeName` (`src/type-utils.ts`). -/
def normalizeDecoratorTypeName (raw : String) : Option String :=
  let cleaned := String.mk (trimChars (stripConstructorSuffix raw).data)
  if cleaned = "String" then some "string"
  else if cleaned = "Number" then some "number"
  else if cleaned = "Boolean" then some "boolean"
  else if cleaned = "Array" then some "unknown[]"
  else if cleaned = "Object" then some "Record<string, unknown>"
  else if cleaned = "Date" then some "Date"
  else if cleaned = "" then none
  else some cleaned

/-- `inferTypeFromInitializer` (`src/type-utils.ts`).  `templateLit`
covers the template-literal branches, `numLit` also stands for bigint
literals, and `preMinusNum` is the prefix-unary-on-numeric branch. -/
def inferTypeFromInitializer : PExpr → Option String
  | .strLit _ => some "string"
  | .templateLit _ => some "string"
  | .boolLit _ => some "boolean"
  | .numLit _ => some "number"
  | .preMinusNum _ => some "number"
  | .arrayLit _ => some "unknown[]"
  | .objLit _ => some "Record<string, unknown>"
  | .nullLit => some "null"
  | .ident n => if n = "undefined" then some "undefined" else none
  | _ => none

/-! ## `parseMethod` (`src/parser.ts`) -/

def isLifecycleMethod (name : String) : Bool :=
  name ∈ ["connectedCallback", "disconnectedCallback",
          "attributeChangedCallback", "adoptedCallback", "render",
          "update", "updated", "firstUpdated", "willUpdate",
          "shouldUpdate", "createRenderRoot", "performUpdate"]

/-- Association lookup, modelling a string-keyed record/Map. -/
def alookup {α : Type} : List (String × α) → String → Option α
  | [], _ => none
  | (k, v) :: rest, key => if k = key then some v else alookup rest key

def parseMethod (node : MethodDecl) : Option MethodDocs :=
  if node.isPrivate ∨ strStarts node.name "_" ∨ isLifecycleMethod node.name then
    none
  else
    let jsDoc := node.jsDoc
    let parameters := node.params.map fun param =>
      { name := param.name
        type := param.typeText.getD "any"
        description := alookup jsDoc.params param.name
        optional := param.questionTok ∨ param.initText.isSome
        defaultVal := param.initText : ParameterDocs }
    let returns := node.retType.map fun t =>
      ({ type := t, description := jsDoc.returns } : ReturnDocs)
    some { name := node.name
           description := jsDoc.description
           parameters := parameters
           returns := returns
           isAsync := node.isAsync
           deprecated := jsDoc.deprecated }

/-! ## Event extraction (`src/parser.ts`) -/

def extractEventName (node : NewEvt) : Option String :=
  match node.args.head? with
  | some (.strLit s) => some s
  | _ => none

def extractEventDetail (node : NewEvt) : Option String :=
  node.typeArgs.head?

/-- Return type of `extractEventOptions`. -/
structure EventOptsInfo where
  bubbles : Option Bool := none
  composed : Option Bool := none
  cancelable : Option Bool := none
  deriving DecidableEq, Repr

/-- The option-object scan: for every `PropertyAssignment` named
`bubbles` / `composed` / `cancelable` the source executes
`result[propName] = prop.initializer.getText() === 'true'`, so the flag
is always set for such an assignment — `true` exactly when the text is
`true`, and `false` for every other initializer. -/
def eventOptionsGo : OProps → EventOptsInfo → EventOptsInfo
  | .onil, acc => acc
  | .oassign propName init tail, acc =>
    let acc :=
      if propName = "bubbles" then { acc with bubbles := some (getText init = "true") }
      else if propName = "composed" then { acc with composed := some (getText init = "true") }
      else if propName = "cancelable" then { acc with cancelable := some (getText init = "true") }
      else acc
    eventOptionsGo tail acc
  | .oother tail, acc => eventOptionsGo tail acc

def extractEventOptions (node : NewEvt) : EventOptsInfo :=
  match node.args.second? with
  | some (.objLit props) => eventOptionsGo props {}
  | _ => {}

/-- `extractEvents`: the recursive walk through member bodies is
modelled by the list of dispatch calls in traversal order; the
insertion-ordered `eventMap` keyed by name becomes an accumulating
list.  An empty event name is skipped (`if (eventName && ...)`). -/
def extractEvents (calls : List NewEvt) : List EventDocs :=
  calls.foldl
    (fun acc c =>
      match extractEventName c with
      | some eventName =>
        if eventName ≠ "" ∧ ¬ acc.any (fun e => e.name = eventName) then
          let options := extractEventOptions c
          acc ++ [{ name := eventName
                    detail := extractEventDetail c
                    bubbles := options.bubbles
                    composed := options.composed
                    cancelable := options.cancelable }]
        else acc
      | none => acc)
    []

/-! ## `collectClassDocParts` and merging (`src/parser.ts`) -/

def docPartsFromJsDoc (jsDoc : JsDocInfo) : ClassDocParts :=
  { description := jsDoc.description
    usage := jsDoc.usage
    dependencies := jsDoc.dependencies
    slots := jsDoc.slots
    cssProperties := jsDoc.cssProperties
    cssParts := jsDoc.cssParts
    properties := []
    events := []
    methods := [] }

def collectClassDocParts (node : ClassDecl) : ClassDocParts :=
  let classJsDoc := node.jsDoc
  { description := classJsDoc.description
    usage := classJsDoc.usage
    dependencies := classJsDoc.dependencies
    slots := classJsDoc.slots
    cssProperties := classJsDoc.cssProperties
    cssParts := classJsDoc.cssParts
    properties := node.members.filterMap fun m =>
      match m with
      | .propM p => parseProperty p
      | _ => none
    events := extractEvents node.eventCalls
    methods := node.members.filterMap fun m =>
      match m with
      | .methodM mm => parseMethod mm
      | _ => none }

/-- JS truthiness of an optional string (`undefined` and `""` are
falsy). -/
def descTruthy : Option String → Bool
  | none => false
  | some s => s ≠ ""

/-- The shared shape of the five `forEach` blocks of
`mergeClassDocParts`: push each source entry unless the growing target
already holds an entry with the same name. -/
def dedupByName {α : Type} (getName : α → String) (target source : List α) : List α :=
  source.foldl
    (fun acc s => if acc.any (fun e => getName e = getName s) then acc else acc ++ [s])
    target

/-- The usage/dependencies blocks: append with exact-value
deduplication, materialising the target list if absent. -/
def mergeStrList (t : Option (List String)) (src : List String) : List String :=
  src.foldl (fun acc x => if x ∈ acc then acc else acc ++ [x]) (t.getD [])

def mergeClassDocParts (target source : ClassDocParts) : ClassDocParts :=
  { description :=
      if ¬ descTruthy target.description ∧ descTruthy source.description then
        source.description
      else target.description
    usage :=
      match source.usage with
      | some su => if su ≠ [] then some (mergeStrList target.usage su) else target.usage
      | none => target.usage
    dependencies :=
      match source.dependencies with
      | some sd => if sd ≠ [] then some (mergeStrList target.dependencies sd) else target.dependencies
      | none => target.dependencies
    properties := dedupByName PropertyDocs.name target.properties source.properties
    events := dedupByName EventDocs.name target.events source.events
    methods := dedupByName MethodDocs.name target.methods source.methods
    slots := dedupByName SlotDocs.name target.slots source.slots
    cssProperties := dedupByName CssPropertyDocs.name target.cssProperties source.cssProperties
    cssParts := dedupByName CssPartDocs.name target.cssParts source.cssParts }

/-- Deep copy; identity for immutable values. -/
def cloneClassDocParts (source : ClassDocParts) : ClassDocParts := source

/-! ## Mixin-name collection (`src/parser.ts`) -/

/-- `getExpressionName`: identifiers and property accesses yield their
text; `as`-expressions (also standing for old-style type assertions)
and parentheses are unwrapped; anything else yields nothing. -/
def getExpressionName : PExpr → Option String
  | .ident n => some n
  | .propAcc t => some t
  | .asE e _ => getExpressionName e
  | .parenE e => getExpressionName e
  | _ => none

mutual
def collectMixinNamesFromExpression : PExpr → List String
  | .callE callee args =>
    (getExpressionName callee).toList ++ collectMixinNamesFromArgs args
  | .ident n => (getExpressionName (.ident n)).toList
  | .propAcc t => (getExpressionName (.propAcc t)).toList
  | .asE e ty => (getExpressionName (.asE e ty)).toList
  | .parenE e => (getExpressionName (.parenE e)).toList
  | _ => []
def collectMixinNamesFromArgs : PArgs → List String
  | .nil => []
  | .cons h t => collectMixinNamesFromExpression h ++ collectMixinNamesFromArgs t
end

/-- Insertion-ordered `new Set(...)` deduplication. -/
def dedupKeepFirst (l : List String) : List String :=
  l.foldl (fun acc x => if x ∈ acc then acc else acc ++ [x]) []

def extractMixinNamesFromClass (node : ClassDecl) : List String :=
  dedupKeepFirst
    (((node.heritage.map collectMixinNamesFromExpression).flatten).filter (fun n => n ≠ ""))

/-! ## File index and resolution context (`src/parser.ts`)

`Env` plays the role of the file system of parseable source files: an
association from absolute file path to its collected `FileInfo`
(declaration map and import map).  `ensureFileInfo` is then a pure
lookup — the `fileInfoMap` cache of the original is semantically
transparent because a file always parses to the same index, and a path
absent from `Env` models a missing or unreadable file.  The
`resolvingKeys` set is passed downward (the original adds the key
before each recursive phase and deletes it right after, so on return it
always equals the value at entry); the `docsCache` is threaded through
results.  A fuel parameter makes the recursion structural; theorem
`C1_mixin_cycle_terminates` shows any fuel above the key count gives
the same answer, which is the termination argument for the original
unbounded recursion. -/

inductive ImportKind where
  | named
  | defaultKind
  | namespaceKind
  deriving DecidableEq, Repr

/-- `ImportRecord` from `src/parser.ts` (`defaultKind` /
`namespaceKind` model the `default` / `namespace` kinds). -/
structure ImportRecord where
  filePath : Option String
  exportName : String
  type : ImportKind
  deriving DecidableEq, Repr

/-- `MixinDeclaration` from `src/parser.ts`.  `docJsDoc = some j`
models `docNode !== classNode` with the JSDoc content `j` attached to
the doc node; `none` models `docNode === classNode`. -/
structure MixinDeclaration where
  classNode : ClassDecl
  docJsDoc : Option JsDocInfo := none
  filePath : String
  deriving DecidableEq, Repr

/-- `FileInfo` from `src/parser.ts`, restricted to the two maps the
resolution engine reads. -/
structure FileInfo where
  declarations : List (String × MixinDeclaration) := []
  imports : List (String × ImportRecord) := []
  deriving DecidableEq, Repr

abbrev Env := List (String × FileInfo)

abbrev Cache := List (String × ClassDocParts)

/-- The cache / cycle-guard key: `` `${filePath}::${mixinName}` ``. -/
def mkKey (filePath mixinName : String) : String :=
  filePath ++ "::" ++ mixinName

def ensureFileInfo (env : Env) (filePath : String) : Option FileInfo :=
  alookup env filePath

/-- The `mixinNames.forEach` loop shared by `buildDocsFromDeclaration`:
resolve each name and merge a non-null result into the fragment. -/
def loopGo (recur : String → List String → Cache → String → Option ClassDocParts × Cache) :
    List String → String → List String → ClassDocParts → Cache → ClassDocParts × Cache
  | [], _, _, docs, cache => (docs, cache)
  | name :: rest, filePath, keys, docs, cache =>
    match recur name keys cache filePath with
    | (some depDocs, cache1) =>
      loopGo recur rest filePath keys (mergeClassDocParts docs depDocs) cache1
    | (none, cache1) => loopGo recur rest filePath keys docs cache1

/-- `buildDocsFromDeclaration`, parameterised by the recursive
resolver.  The key for the declaration being built has already been
added to `keys` by the caller, exactly as `resolvingKeys.add(key)`
precedes the call in the source. -/
def buildDocsStep (env : Env)
    (recur : String → List String → Cache → String → Option ClassDocParts × Cache)
    (declaration : MixinDeclaration) (keys : List String) (cache : Cache) :
    ClassDocParts × Cache :=
  match ensureFileInfo env declaration.filePath with
  | none => ({}, cache)
  | some _ =>
    let docs := collectClassDocParts declaration.classNode
    let docs :=
      match declaration.docJsDoc with
      | some jsDoc => mergeClassDocParts docs (docPartsFromJsDoc jsDoc)
      | none => docs
    loopGo recur (extractMixinNamesFromClass declaration.classNode)
      declaration.filePath keys docs cache

/-- One unfolding of `resolveMixinDocs`, parameterised by the resolver
used for the recursive calls.  Branch order follows the source: empty
name, cache hit, cycle guard, missing file, local declaration, import
record. -/
def resolveStep (env : Env)
    (recur : String → List String → Cache → String → Option ClassDocParts × Cache)
    (mixinName : String) (keys : List String) (cache : Cache) (filePath : String) :
    Option ClassDocParts × Cache :=
  if mixinName = "" then (none, cache)
  else
    let key := mkKey filePath mixinName
    match alookup cache key with
    | some cached => (some (cloneClassDocParts cached), cache)
    | none =>
      if key ∈ keys then (none, cache)
      else
        match ensureFileInfo env filePath with
        | none => (none, cache)
        | some fileInfo =>
          match alookup fileInfo.declarations mixinName with
          | some declaration =>
            let result := buildDocsStep env recur declaration (key :: keys) cache
            (some (cloneClassDocParts result.1),
             (key, cloneClassDocParts result.1) :: result.2)
          | none =>
            match alookup fileInfo.imports mixinName with
            | some importRecord =>
              match importRecord.filePath with
              | none => (none, cache)
              | some importedFile =>
                if importRecord.type = .namespaceKind then (none, cache)
                else
                  match recur importRecord.exportName (key :: keys) cache importedFile with
                  | (some docs, cache1) =>
                    (some (cloneClassDocParts docs),
                     (key, cloneClassDocParts docs) :: cache1)
                  | (none, cache1) => (none, cache1)
            | none => (none, cache)

/-- Fuelled resolver; fuel decreases once per (recursive)
`resolveMixinDocs` activation. -/
def resolveF (env : Env) : Nat → String → List String → Cache → String → Option ClassDocParts × Cache
  | 0, _, _, cache, _ => (none, cache)
  | fuel + 1, mixinName, keys, cache, filePath =>
    resolveStep env (resolveF env fuel) mixinName keys cache filePath

/-- Every key the resolver can ever push: one per declaration or import
binding of every indexed file. -/
def allKeysList (env : Env) : List String :=
  (env.map fun entry =>
    entry.2.declarations.map (fun d => mkKey entry.1 d.1) ++
    entry.2.imports.map (fun i => mkKey entry.1 i.1)).flatten

/-- Number of pushable keys not yet on the in-progress stack: the
measure that strictly decreases across recursive activations. -/
def freeCount (env : Env) (keys : List String) : Nat :=
  (allKeysList env).countP fun k => decide (k ∉ keys)

def resolutionBound (env : Env) : Nat := (allKeysList env).length + 1

/-- `resolveMixinDocs` (`src/parser.ts`): the fuelled resolver run with
ample fuel. -/
def resolveMixinDocs (env : Env) (mixinName : String) (keys : List String)
    (cache : Cache) (filePath : String) : Option ClassDocParts × Cache :=
  resolveF env (resolutionBound env) mixinName keys cache filePath

/-- `buildDocsFromDeclaration` (`src/parser.ts`) at ample fuel. -/
def buildDocsFromDeclaration (env : Env) (declaration : MixinDeclaration)
    (keys : List String) (cache : Cache) : ClassDocParts × Cache :=
  buildDocsStep env (resolveF env (resolutionBound env)) declaration keys cache

/-! ## `parseClassDeclaration` and `parseLitComponent` (`src/parser.ts`) -/

/-- The mixin-attachment loop of `parseClassDeclaration`: each resolved
fragment has `mixinDocs.methods = []` assigned before being merged.
`resolveMixinDocs` is entered with an empty in-progress stack, as in
the source where every earlier activation has restored the shared
set. -/
def attachMixinsGo (env : Env) : List String → String → ClassDocParts → Cache → ClassDocParts × Cache
  | [], _, docs, cache => (docs, cache)
  | mixinName :: rest, filePath, docs, cache =>
    match resolveMixinDocs env mixinName [] cache filePath with
    | (some mixinDocs, cache1) =>
      attachMixinsGo env rest filePath
        (mergeClassDocParts docs { mixinDocs with methods := [] }) cache1
    | (none, cache1) => attachMixinsGo env rest filePath docs cache1

/-- `parseClassDeclaration`: the `if (!tagName) return null` guard is a
JS falsiness test, so both a missing `customElement` decorator and an
empty-string tag `@customElement('')` make the call return null. -/
def parseClassDeclaration (env : Env) (node : ClassDecl) (filePath : String)
    (cache : Cache) : Option LitComponentDocs × Cache :=
  let className := node.name.getD "Unknown"
  match extractCustomElementTag node with
  | none => (none, cache)
  | some tagName =>
    if tagName = "" then (none, cache)
    else
    let classDocs := collectClassDocParts node
    let result := attachMixinsGo env (extractMixinNamesFromClass node) filePath classDocs cache
    (some { className := className
            tagName := tagName
            description := result.1.description
            usage := result.1.usage
            properties := result.1.properties
            events := result.1.events
            methods := result.1.methods
            slots := result.1.slots
            cssProperties := result.1.cssProperties
            cssParts := result.1.cssParts
            dependencies := result.1.dependencies
            filePath := filePath }, result.2)

/-- The entry file, as the `visit` traversal sees it: every named class
declaration in document (pre-order) order. -/
structure SourceFileModel where
  classes : List ClassDecl := []
  deriving DecidableEq, Repr

/-- The `visit` recursion of `parseLitComponent`: each class that
extends LitElement unconditionally overwrites `componentDocs` with the
result of `parseClassDeclaration`, null included; the mixin context is
shared across the whole traversal. -/
def visitGo (env : Env) (filePath : String) :
    List ClassDecl → Option LitComponentDocs → Cache → Option LitComponentDocs × Cache
  | [], acc, cache => (acc, cache)
  | node :: rest, acc, cache =>
    if node.name.isSome && extendsLitElement node then
      let result := parseClassDeclaration env node filePath cache
      visitGo env filePath rest result.1 result.2
    else visitGo env filePath rest acc cache

def parseLitComponent (env : Env) (filePath : String) (sf : SourceFileModel) :
    Option LitComponentDocs :=
  (visitGo env filePath sf.classes none []).1

/-! ## Import path resolution (`src/parser.ts`)

The file system is a pair of path lists (regular files, directories);
`existsSync` / `statSync().isFile()` / `.isDirectory()` become
membership tests, so probing is total and can never throw.  Paths are
POSIX-style and absolute, and the Node `path` functions are modelled by
segment arithmetic. -/

structure FSModel where
  files : List String := []
  dirs : List String := []
  deriving DecidableEq, Repr

def existsSyncM (fs : FSModel) (p : String) : Bool :=
  p ∈ fs.files ∨ p ∈ fs.dirs

def isFileM (fs : FSModel) (p : String) : Bool := p ∈ fs.files

def isDirM (fs : FSModel) (p : String) : Bool := p ∈ fs.dirs

def splitSlashGo : List Char → List Char → List String
  | [], acc => [String.mk acc.reverse]
  | c :: rest, acc =>
    if c = '/' then String.mk acc.reverse :: splitSlashGo rest []
    else splitSlashGo rest (c :: acc)

/-- Path segments, empty segments dropped. -/
def splitSegs (p : String) : List String :=
  (splitSlashGo p.data []).filter (fun s => s ≠ "")

/-- Normalise `.` and `..` segments, `..` above the root staying at the
root (Node `path.resolve` semantics for absolute paths). -/
def normSegs (segs : List String) : List String :=
  segs.foldl
    (fun acc s => if s = "." then acc else if s = ".." then acc.dropLast else acc ++ [s])
    []

/-- `path.resolve(p)` for an absolute `p`. -/
def resolveAbs (p : String) : String :=
  "/" ++ strJoin "/" (normSegs (splitSegs p))

/-- `path.resolve(base, spec)` with `base` absolute. -/
def resolvePathFrom (base spec : String) : String :=
  if strStarts spec "/" then resolveAbs spec
  else "/" ++ strJoin "/" (normSegs (splitSegs base ++ splitSegs spec))

/-- `path.dirname` for an absolute path. -/
def dirnameP (p : String) : String :=
  "/" ++ strJoin "/" (splitSegs p).dropLast

/-- `path.basename` of a (possibly relative) specifier. -/
def basenameP (p : String) : String :=
  ((splitSegs p).getLast?).getD ""

def extensionPriority : List String :=
  [".ts", ".tsx", ".mts", ".cts", ".js", ".mjs", ".cjs", ".jsx"]

def tsExtensions : List String := [".ts", ".tsx", ".mts", ".cts"]

def jsExtensions : List String := [".js", ".mjs", ".cjs", ".jsx"]

/-- JS `String.prototype.lastIndexOf` for a single character. -/
def lastIdxOf (l : List Char) (c : Char) : Int :=
  match (l.reverse).findIdx? (fun x => x = c) with
  | none => -1
  | some i => (l.length : Int) - 1 - (i : Int)

/-- The extension of `basePath` after its last slash, when present. -/
def currentExtOf (basePath : String) : Option String :=
  let l := basePath.data
  let lastSlash := max (lastIdxOf l '/') (lastIdxOf l '\\')
  let lastDot := lastIdxOf l '.'
  if lastDot > lastSlash then some (String.mk (l.drop lastDot.toNat)) else none

/-- The `extensionRecognized` test of `tryResolveFile`. -/
def hasRecognizedExt (basePath : String) : Bool :=
  match currentExtOf basePath with
  | some ext => ext ∈ extensionPriority
  | none => false

/-- The candidate set built by `tryResolveFile`, in insertion order
(the `Set` never receives a duplicate: every added variant differs from
`basePath` and from the other variants). -/
def candidatesFor (basePath : String) : List String :=
  let l := basePath.data
  let lastDot := lastIdxOf l '.'
  let currentExtension := (currentExtOf basePath).getD ""
  let extensionRecognized := hasRecognizedExt basePath
  if ¬ extensionRecognized then
    basePath :: extensionPriority.map (fun ext => basePath ++ ext)
  else
    let baseWithoutExt := String.mk (l.take lastDot.toNat)
    if currentExtension ∈ jsExtensions then
      basePath :: tsExtensions.map (fun ext => baseWithoutExt ++ ext)
    else if currentExtension ∈ tsExtensions then
      basePath :: jsExtensions.map (fun ext => baseWithoutExt ++ ext)
    else [basePath]

/-- The `index` probe inside a directory candidate. -/
def findIndexFile (fs : FSModel) (candidate : String) : List String → Option String
  | [] => none
  | ext :: rest =>
    let indexCandidate := resolvePathFrom candidate ("index" ++ ext)
    if isFileM fs indexCandidate then some indexCandidate
    else findIndexFile fs candidate rest

def tryResolveGo (fs : FSModel) : List String → Option String
  | [] => none
  | candidate :: rest =>
    if ¬ existsSyncM fs candidate then tryResolveGo fs rest
    else if isFileM fs candidate then some candidate
    else if isDirM fs candidate then
      match findIndexFile fs candidate extensionPriority with
      | some idx => some idx
      | none => tryResolveGo fs rest
    else tryResolveGo fs rest

def tryResolveFile (fs : FSModel) (basePath : String) : Option String :=
  tryResolveGo fs (candidatesFor basePath)

def resolveImportPath (fs : FSModel) (specifier fromFile : String) : Option String :=
  if ¬ strStarts specifier "." ∧ ¬ strStarts specifier "/" then none
  else
    let baseDir := dirnameP fromFile
    let rawPath :=
      if strStarts specifier "." then resolvePathFrom baseDir specifier
      else resolveAbs specifier
    match tryResolveFile fs rawPath with
    | some resolvedDirect => some resolvedDirect
    | none =>
      let fallbackBase := basenameP specifier
      if fallbackBase ≠ "" then
        tryResolveFile fs (resolvePathFrom baseDir fallbackBase)
      else none

/-! ## Markdown generator fragments (`src/markdown-generator.ts`) -/

/-- `kebabCase`: `str.replace(/([a-z])([A-Z])/g, '$1-$2').toLowerCase()`. -/
def kebabGo : List Char → List Char
  | [] => []
  | [c] => [c]
  | a :: b :: rest =>
    if isLowerAZ a ∧ isUpperAZ b then a :: '-' :: kebabGo (b :: rest)
    else a :: kebabGo (b :: rest)

def kebabCase (str : String) : String :=
  String.mk ((kebabGo str.data).map lowerChar)

/-- The Attribute cell of `generatePropertiesTable`.  The source also
has a `prop.attribute === null ? '--'` branch; it is unreachable, since
`PropertyDocs.attribute` is declared `string | undefined` in
`src/types.ts` and the parser never produces `null`, so the embedding
of the reachable behaviour needs only the `undefined` / string split. -/
def attributeCell (prop : PropertyDocs) : String :=
  if prop.state = some true then "_internal_"
  else
    match prop.attr with
    | none => "`" ++ kebabCase prop.name ++ "`"
    | some a => "`" ++ a ++ "`"

/-! ## Comparison definitions -/

/-- Follows the spec sentence that non-method facts flow through the
attachment step unchanged: the same attachment loop as
`attachMixinsGo`, but merging each resolved fragment whole, methods
kept.  Used only to compare against the real loop. -/
def attachMixinsKeepGo (env : Env) : List String → String → ClassDocParts → Cache → ClassDocParts × Cache
  | [], _, docs, cache => (docs, cache)
  | mixinName :: rest, filePath, docs, cache =>
    match resolveMixinDocs env mixinName [] cache filePath with
    | (some mixinDocs, cache1) =>
      attachMixinsKeepGo env rest filePath (mergeClassDocParts docs mixinDocs) cache1
    | (none, cache1) => attachMixinsKeepGo env rest filePath docs cache1

/-- All fields of a component record other than the method list agree
with the corresponding fields of a fragment. -/
def nonMethodAgree (d : LitComponentDocs) (b : ClassDocParts) : Prop :=
  d.description = b.description ∧ d.usage = b.usage ∧
  d.dependencies = b.dependencies ∧ d.slots = b.slots ∧
  d.cssProperties = b.cssProperties ∧ d.cssParts = b.cssParts ∧
  d.properties = b.properties ∧ d.events = b.events

/-- The last `PropertyAssignment` with the given name in an
object-literal property list. -/
def lastFlagAssign (flag : String) : OProps → Option PExpr
  | .onil => none
  | .oassign n v tail =>
    match lastFlagAssign flag tail with
    | some r => some r
    | none => if n = flag then some v else none
  | .oother tail => lastFlagAssign flag tail

/-- The initializer that decides a given flag of an event-dispatch
call: the last assignment with that name in the second, object-literal
constructor argument, if any. -/
def flagSource (node : NewEvt) (flag : String) : Option PExpr :=
  match node.args.second? with
  | some (.objLit props) => lastFlagAssign flag props
  | _ => none

/-- The classes the `visit` traversal of `parseLitComponent` acts on:
named class declarations whose extends clause matches
`extendsLitElement`. -/
def matchingClasses (classes : List ClassDecl) : List ClassDecl :=
  classes.filter fun c => c.name.isSome && extendsLitElement c

/-! ## Example values used by concrete theorems and witnesses -/

/-- Mixin `A`, declared as extending `B(Base)` — one half of a mutual
reference. -/
def clsA : ClassDecl :=
  { name := some "A"
    heritage := [.callE (.ident "B") (.cons (.ident "Base") .nil)]
    members := [.propM { name := "pA", decorators := [.callDec (.ident "property") .nil] }] }

/-- Mixin `B`, declared as extending `A(Base)` — the other half. -/
def clsB : ClassDecl :=
  { name := some "B"
    heritage := [.callE (.ident "A") (.cons (.ident "Base") .nil)]
    members := [.propM { name := "pB", decorators := [.callDec (.ident "property") .nil] }] }

/-- A file whose two mixin declarations reference each other. -/
def envMut : Env :=
  [("/m.ts",
    { declarations := [("A", { classNode := clsA, filePath := "/m.ts" }),
                       ("B", { classNode := clsB, filePath := "/m.ts" })] })]

/-- A mixin contributing one method and one property. -/
def mixNodeEx : ClassDecl :=
  { name := some "WithHelper"
    members := [.methodM { name := "helperMethod" },
                .propM { name := "mixProp", decorators := [.callDec (.ident "property") .nil] }] }

def envC2 : Env :=
  [("/c.ts",
    { declarations := [("WithHelper", { classNode := mixNodeEx, filePath := "/c.ts" })] })]

/-- A component class `MyComp extends WithHelper(LitElement)` with its
own method and property and a `customElement` registration. -/
def compNodeEx : ClassDecl :=
  { name := some "MyComp"
    decorators := [.callDec (.ident "customElement") (.cons (.strLit "my-comp") .nil)]
    heritage := [.callE (.ident "WithHelper") (.cons (.ident "LitElement") .nil)]
    members := [.methodM { name := "ownMethod" },
                .propM { name := "ownProp", decorators := [.callDec (.ident "property") .nil] }] }

def dC2 : LitComponentDocs :=
  (parseClassDeclaration envC2 compNodeEx "/c.ts" []).1.getD
    { className := "", tagName := "", filePath := "" }

def cC2 : Cache := (parseClassDeclaration envC2 compNodeEx "/c.ts" []).2

/-- A class extending `LitElement` with no `customElement` decorator. -/
def badNodeEx : ClassDecl :=
  { name := some "NoTag"
    heritage := [.ident "LitElement"] }

/-- Entry file holding a valid component followed by a matching class
without a registration decorator. -/
def sfGoodThenBad : SourceFileModel := { classes := [compNodeEx, badNodeEx] }

/-- Merge example target: one property, one event, a description. -/
def tEx : ClassDocParts :=
  { description := some "target text"
    properties := [{ name := "shared", type := "string" }]
    events := [{ name := "ping" }]
    slots := [{ name := "" }] }

/-- Merge example source: a colliding property, a fresh property, a
fresh event, a colliding slot. -/
def sEx : ClassDocParts :=
  { description := some "source text"
    properties := [{ name := "shared", type := "number" }, { name := "fresh", type := "boolean" }]
    events := [{ name := "pong" }]
    slots := [{ name := "" , description := some "src slot" }] }

/-- `@property() count = 42` with no type annotation. -/
def prop42Ex : PropertyDecl :=
  { name := "count"
    decorators := [.callDec (.ident "property") .nil]
    initializer := some (.numLit "42") }

/-- `@property({ type: String }) count = 42` — a registration hint. -/
def propHintEx : PropertyDecl :=
  { name := "count"
    decorators := [.callDec (.ident "property")
      (.cons (.objLit (.oassign "type" (.ident "String") .onil)) .nil)]
    initializer := some (.numLit "42") }

/-- `@property() count : string = 42` — an explicit annotation. -/
def propAnnEx : PropertyDecl :=
  { name := "count"
    decorators := [.callDec (.ident "property") .nil]
    typeText := some "string"
    initializer := some (.numLit "42") }

/-- `@property({ attribute: false }) noAttributeProp = 'internal'`. -/
def propNoAttrEx : PropertyDecl :=
  { name := "noAttributeProp"
    decorators := [.callDec (.ident "property")
      (.cons (.objLit (.oassign "attribute" (.boolLit false) .onil)) .nil)]
    initializer := some (.strLit "internal") }

/-- `@property() noAttributeProp = 'internal'` — no options at all. -/
def propPlainEx : PropertyDecl :=
  { name := "noAttributeProp"
    decorators := [.callDec (.ident "property") .nil]
    initializer := some (.strLit "internal") }

/-- `@property({ attribute: 'data-custom' }) customAttributeProp`. -/
def propOverrideEx : PropertyDecl :=
  { name := "customAttributeProp"
    decorators := [.callDec (.ident "property")
      (.cons (.objLit (.oassign "attribute" (.strLit "data-custom") .onil)) .nil)] }

/-- `new CustomEvent('evt', { bubbles: shouldBubble })`: the bubbles
initializer is an identifier, not a boolean literal. -/
def evtNonLitEx : NewEvt :=
  { args := .cons (.strLit "evt")
      (.cons (.objLit (.oassign "bubbles" (.ident "shouldBubble") .onil)) .nil) }

/-- File system where `/a/foo.ts` and a directory `/a/foo` holding an
index file both exist. -/
def fsBoth : FSModel :=
  { files := ["/a/foo.ts", "/a/foo/index.ts", "/a/main.ts"]
    dirs := ["/", "/a", "/a/foo"] }

/-- File system with only `/a/foo.ts`. -/
def fsOnlyTs : FSModel :=
  { files := ["/a/foo.ts", "/a/main.ts"], dirs := ["/", "/a"] }

/-- File system with only the directory index variant. -/
def fsOnlyIdx : FSModel :=
  { files := ["/a/foo/index.ts", "/a/main.ts"], dirs := ["/", "/a", "/a/foo"] }

/-- `class C extends withFancy(LitElement)`. -/
def wrapperNodeEx : ClassDecl :=
  { name := some "C"
    heritage := [.callE (.ident "withFancy") (.cons (.ident "LitElement") .nil)] }

/-- `class C extends MyLitElementLookalike` — an unrelated base whose
printed name merely contains the substring. -/
def lookalikeNodeEx : ClassDecl :=
  { name := some "C"
    heritage := [.ident "MyLitElementLookalike"] }

/-- `class C extends HTMLElement`. -/
def plainNodeEx : ClassDecl :=
  { name := some "C"
    heritage := [.ident "HTMLElement"] }

/-! ## Lemmas about the deduplicating append -/

theorem dedupByName_nil {α : Type} (f : α → String) (t : List α) :
    dedupByName f t [] = t := rfl

theorem dedupByName_step {α : Type} (f : α → String) (t : List α) (x : α) (s : List α) :
    dedupByName f t (x :: s)
      = dedupByName f (if t.any (fun e => f e = f x) then t else t ++ [x]) s := by
  simp only [dedupByName, List.foldl_cons]

theorem dedupByName_leads {α : Type} (f : α → String) (s : List α) :
    ∀ t : List α, t <+: dedupByName f t s := by
  induction s with
  | nil => intro t; exact List.prefix_rfl
  | cons x s ih =>
    intro t
    rw [dedupByName_step]
    by_cases h : t.any (fun e => f e = f x) = true
    · simpa [h] using ih t
    · simp only [h]
      exact List.IsPrefix.trans (List.prefix_append t [x]) (by simpa [h] using ih (t ++ [x]))

theorem dedupByName_mem {α : Type} (f : α → String) (s : List α) :
    ∀ t : List α, ∀ x ∈ dedupByName f t s,
      x ∈ t ∨ (x ∈ s ∧ f x ∉ t.map f) := by
  induction s with
  | nil => intro t x hx; exact Or.inl hx
  | cons hd s ih =>
    intro t x hx
    rw [dedupByName_step] at hx
    by_cases h : t.any (fun e => f e = f hd) = true
    · simp only [h, if_pos] at hx
      rcases ih t x hx with h1 | ⟨h2, h3⟩
      · exact Or.inl h1
      · exact Or.inr ⟨List.mem_cons_of_mem _ h2, h3⟩
    · simp only [h, if_neg, if_false] at hx
      rcases ih (t ++ [hd]) x hx with h1 | ⟨h2, h3⟩
      · rcases List.mem_append.mp h1 with h1a | h1b
        · exact Or.inl h1a
        · have hx_eq : x = hd := by simpa using h1b
          subst hx_eq
          refine Or.inr ⟨List.mem_cons_self _ _, ?_⟩
          intro hmem
          rcases List.mem_map.mp hmem with ⟨e, he, hfe⟩
          exact h (List.any_eq_true.mpr ⟨e, he, by simpa using hfe⟩)
      · refine Or.inr ⟨List.mem_cons_of_mem _ h2, ?_⟩
        intro hmem
        exact h3 (by simpa [List.map_append] using Or.inl hmem)

theorem dedupByName_nodup {α : Type} (f : α → String) (s : List α) :
    ∀ t : List α, (t.map f).Nodup → ((dedupByName f t s).map f).Nodup := by
  induction s with
  | nil => intro t ht; exact ht
  | cons hd s ih =>
    intro t ht
    rw [dedupByName_step]
    by_cases h : t.any (fun e => f e = f hd) = true
    · simpa [h] using ih t ht
    · simp only [h, if_neg, if_false]
      refine ih (t ++ [hd]) ?_
      rw [List.map_append, List.map_singleton]
      refine List.Nodup.append ht (List.nodup_singleton _) ?_
      intro a ha hb
      have ha_eq : a = f hd := by simpa using hb
      subst ha_eq
      rcases List.mem_map.mp ha with ⟨e, he, hfe⟩
      exact h (List.any_eq_true.mpr ⟨e, he, by simpa using hfe⟩)

theorem dedupByName_name_mem {α : Type} (f : α → String) (s : List α) :
    ∀ t : List α, ∀ x ∈ s, f x ∈ (dedupByName f t s).map f := by
  induction s with
  | nil => intro t x hx; exact absurd hx (List.not_mem_nil x)
  | cons hd s ih =>
    intro t x hx
    rw [dedupByName_step]
    rcases List.mem_cons.mp hx with hx_eq | hx_tl
    · subst hx_eq
      by_cases h : t.any (fun e => f e = f x) = true
      · simp only [h, if_pos]
        rcases List.any_eq_true.mp h with ⟨e, he, hfe⟩
        exact List.mem_map.mpr ⟨e, (dedupByName_leads f s t).subset he, by simpa using hfe⟩
      · simp only [h, if_neg, if_false]
        have hmem : x ∈ t ++ [x] := List.mem_append.mpr (Or.inr (List.mem_singleton.mpr rfl))
        have := (dedupByName_leads f s (t ++ [x])).subset hmem
        exact List.mem_map.mpr ⟨x, this, rfl⟩
    · exact ih _ x hx_tl

theorem dedupByName_absorb {α : Type} (f : α → String) (s : List α) :
    ∀ t : List α, (∀ x ∈ s, f x ∈ t.map f) → dedupByName f t s = t := by
  induction s with
  | nil => intro t _; rfl
  | cons hd s ih =>
    intro t ht
    rw [dedupByName_step]
    have hhd : f hd ∈ t.map f := ht hd (List.mem_cons_self _ _)
    rcases List.mem_map.mp hhd with ⟨e, he, hfe⟩
    have hany : t.any (fun e => f e = f hd) = true :=
      List.any_eq_true.mpr ⟨e, he, by simpa using hfe⟩
    simp only [hany, if_pos]
    exact ih t fun x hx => ht x (List.mem_cons_of_mem _ hx)

theorem dedupByName_idem {α : Type} (f : α → String) (t s : List α) :
    dedupByName f (dedupByName f t s) s = dedupByName f t s :=
  dedupByName_absorb f s _ fun x hx => dedupByName_name_mem f s t x hx

theorem mergeStrList_eq_dedup (t : Option (List String)) (src : List String) :
    mergeStrList t src = dedupByName id (t.getD []) src := by
  unfold mergeStrList dedupByName
  congr 1
  funext acc x
  by_cases h : x ∈ acc
  · simp [h, List.any_eq_true]
  · simp only [h, if_neg, if_false, List.any_eq_true, id_eq]
    rw [if_neg]
    rintro ⟨y, hy, hyx⟩
    exact h ((of_decide_eq_true hyx) ▸ hy)

theorem mergeStrList_mem_of_mem (t : Option (List String)) (src : List String)
    (x : String) (hx : x ∈ src) : x ∈ mergeStrList t src := by
  rw [mergeStrList_eq_dedup]
  have := dedupByName_name_mem id src (t.getD []) x hx
  simpa using this

theorem mergeStrList_absorb (t : Option (List String)) (src : List String)
    (h : ∀ x ∈ src, x ∈ t.getD []) : mergeStrList t src = t.getD [] := by
  rw [mergeStrList_eq_dedup]
  exact dedupByName_absorb id src _ fun x hx => by simpa using h x hx

theorem mergeStrList_idem (t : Option (List String)) (src : List String) :
    mergeStrList (some (mergeStrList t src)) src = mergeStrList t src := by
  have := mergeStrList_absorb (some (mergeStrList t src)) src
    (fun x hx => by simpa using mergeStrList_mem_of_mem t src x hx)
  simpa using this

/-! ## Lemmas about `mergeClassDocParts` -/

theorem ClassDocParts.extEq {a b : ClassDocParts}
    (h1 : a.description = b.description) (h2 : a.usage = b.usage)
    (h3 : a.dependencies = b.dependencies) (h4 : a.slots = b.slots)
    (h5 : a.cssProperties = b.cssProperties) (h6 : a.cssParts = b.cssParts)
    (h7 : a.properties = b.properties) (h8 : a.events = b.events)
    (h9 : a.methods = b.methods) : a = b := by
  cases a; cases b; simp_all

theorem merge_description (t s : ClassDocParts) :
    (mergeClassDocParts t s).description
      = if ¬ descTruthy t.description ∧ descTruthy s.description then
          s.description
        else t.description := rfl

theorem merge_description_idem (t s : ClassDocParts) :
    (mergeClassDocParts (mergeClassDocParts t s) s).description
      = (mergeClassDocParts t s).description := by
  simp only [merge_description]
  by_cases h1 : descTruthy t.description = true <;>
    by_cases h2 : descTruthy s.description = true <;>
    simp [h1, h2]

theorem merge_usage_idem (t s : ClassDocParts) :
    (mergeClassDocParts (mergeClassDocParts t s) s).usage
      = (mergeClassDocParts t s).usage := by
  show (mergeClassDocParts (mergeClassDocParts t s) s).usage = _
  unfold mergeClassDocParts
  cases hsu : s.usage with
  | none => rfl
  | some su =>
    by_cases hne : su = []
    · simp [hne]
    · simp [hne, mergeStrList_idem]

theorem merge_dependencies_idem (t s : ClassDocParts) :
    (mergeClassDocParts (mergeClassDocParts t s) s).dependencies
      = (mergeClassDocParts t s).dependencies := by
  unfold mergeClassDocParts
  cases hsd : s.dependencies with
  | none => rfl
  | some sd =>
    by_cases hne : sd = []
    · simp [hne]
    · simp [hne, mergeStrList_idem]

theorem mergeClassDocParts_idem (t s : ClassDocParts) :
    mergeClassDocParts (mergeClassDocParts t s) s = mergeClassDocParts t s := by
  apply ClassDocParts.extEq
  · exact merge_description_idem t s
  · exact merge_usage_idem t s
  · exact merge_dependencies_idem t s
  · exact dedupByName_idem _ _ _
  · exact dedupByName_idem _ _ _
  · exact dedupByName_idem _ _ _
  · exact dedupByName_idem _ _ _
  · exact dedupByName_idem _ _ _
  · exact dedupByName_idem _ _ _

/-- Claim C3: `Merge(target, source)` appends slots, style custom
properties, style parts, properties and events with name-based
deduplication where the existing target entry wins ties, and fills the
description only when the target description is empty; a merge never
introduces a duplicate name, and merging the same fragment a second
time (the two-path / diamond case) adds nothing, so a composition
function reached through two different paths contributes each named
entry exactly once. -/
theorem C3_merge_dedup_and_single_contribution (t s : ClassDocParts)
    (hp : (t.properties.map PropertyDocs.name).Nodup)
    (he : (t.events.map EventDocs.name).Nodup)
    (hs : (t.slots.map SlotDocs.name).Nodup)
    (hcp : (t.cssProperties.map CssPropertyDocs.name).Nodup)
    (hcpt : (t.cssParts.map CssPartDocs.name).Nodup) :
    ((mergeClassDocParts t s).description
        = if ¬ descTruthy t.description ∧ descTruthy s.description then
            s.description
          else t.description)
    ∧ t.properties <+: (mergeClassDocParts t s).properties
    ∧ (∀ p ∈ (mergeClassDocParts t s).properties,
        p ∈ t.properties ∨ (p ∈ s.properties ∧ p.name ∉ t.properties.map PropertyDocs.name))
    ∧ t.events <+: (mergeClassDocParts t s).events
    ∧ (∀ e ∈ (mergeClassDocParts t s).events,
        e ∈ t.events ∨ (e ∈ s.events ∧ e.name ∉ t.events.map EventDocs.name))
    ∧ t.slots <+: (mergeClassDocParts t s).slots
    ∧ (∀ x ∈ (mergeClassDocParts t s).slots,
        x ∈ t.slots ∨ (x ∈ s.slots ∧ x.name ∉ t.slots.map SlotDocs.name))
    ∧ t.cssProperties <+: (mergeClassDocParts t s).cssProperties
    ∧ (∀ x ∈ (mergeClassDocParts t s).cssProperties,
        x ∈ t.cssProperties ∨ (x ∈ s.cssProperties ∧ x.name ∉ t.cssProperties.map CssPropertyDocs.name))
    ∧ t.cssParts <+: (mergeClassDocParts t s).cssParts
    ∧ (∀ x ∈ (mergeClassDocParts t s).cssParts,
        x ∈ t.cssParts ∨ (x ∈ s.cssParts ∧ x.name ∉ t.cssParts.map CssPartDocs.name))
    ∧ ((mergeClassDocParts t s).properties.map PropertyDocs.name).Nodup
    ∧ ((mergeClassDocParts t s).events.map EventDocs.name).Nodup
    ∧ ((mergeClassDocParts t s).slots.map SlotDocs.name).Nodup
    ∧ ((mergeClassDocParts t s).cssProperties.map CssPropertyDocs.name).Nodup
    ∧ ((mergeClassDocParts t s).cssParts.map CssPartDocs.name).Nodup
    ∧ mergeClassDocParts (mergeClassDocParts t s) s = mergeClassDocParts t s := by
  refine ⟨merge_description t s,
    dedupByName_leads _ _ _, fun p hp' => dedupByName_mem _ _ _ p hp',
    dedupByName_leads _ _ _, fun e he' => dedupByName_mem _ _ _ e he',
    dedupByName_leads _ _ _, fun x hx' => dedupByName_mem _ _ _ x hx',
    dedupByName_leads _ _ _, fun x hx' => dedupByName_mem _ _ _ x hx',
    dedupByName_leads _ _ _, fun x hx' => dedupByName_mem _ _ _ x hx',
    dedupByName_nodup _ _ _ hp, dedupByName_nodup _ _ _ he,
    dedupByName_nodup _ _ _ hs, dedupByName_nodup _ _ _ hcp,
    dedupByName_nodup _ _ _ hcpt,
    mergeClassDocParts_idem t s⟩

/-- Witness for C3 at concrete fragments. -/
theorem C3_witness :
    mergeClassDocParts (mergeClassDocParts tEx sEx) sEx = mergeClassDocParts tEx sEx
    ∧ ((mergeClassDocParts tEx sEx).properties.map PropertyDocs.name).Nodup :=
  have h := C3_merge_dedup_and_single_contribution tEx sEx
    (by decide) (by decide) (by decide) (by decide) (by decide)
  ⟨h.2.2.2.2.2.2.2.2.2.2.2.2.2.2.2.2, h.2.2.2.2.2.2.2.2.2.2.2.1⟩

/-! ## Lemmas about the attachment step (claim C2) -/

/-- Merging a fragment whose method list was emptied into a target
whose method list was overridden: every non-method output field equals
the plain merge, and the methods pass through the override. -/
theorem merge_discard_into_override (b d : ClassDocParts) (m : List MethodDocs) :
    mergeClassDocParts { b with methods := m } { d with methods := [] }
      = { mergeClassDocParts b d with methods := m } := by
  apply ClassDocParts.extEq <;> rfl

theorem attachMixinsGo_keep (env : Env) (names : List String) :
    ∀ (filePath : String) (docsB : ClassDocParts) (m : List MethodDocs) (cache : Cache),
      attachMixinsGo env names filePath { docsB with methods := m } cache
        = ({ (attachMixinsKeepGo env names filePath docsB cache).1 with methods := m },
           (attachMixinsKeepGo env names filePath docsB cache).2) := by
  induction names with
  | nil => intro fp b m c; rfl
  | cons n rest ih =>
    intro fp b m c
    simp only [attachMixinsGo, attachMixinsKeepGo]
    rcases hres : resolveMixinDocs env n [] c fp with ⟨docsOpt, c1⟩
    cases docsOpt with
    | none => simpa using ih fp b m c1
    | some d =>
      dsimp only
      rw [merge_discard_into_override]
      simpa using ih fp (mergeClassDocParts b d) m c1

/-- Claim C2: whenever `parseClassDeclaration` produces a component
record, its method list is exactly the method list extracted from the
component class itself (each resolved mixin fragment had its methods
emptied before the merge), while every other resolved field agrees
with the same attachment loop performed without discarding methods —
the mixin properties, events, slots, style hooks, description and
dependencies flow through. -/
theorem C2_attachment_discards_mixin_methods
    (env : Env) (node : ClassDecl) (filePath : String) (cache : Cache)
    (d : LitComponentDocs) (c : Cache)
    (h : parseClassDeclaration env node filePath cache = (some d, c)) :
    d.methods = (collectClassDocParts node).methods
    ∧ nonMethodAgree d
        (attachMixinsKeepGo env (extractMixinNamesFromClass node) filePath
          (collectClassDocParts node) cache).1 := by
  unfold parseClassDeclaration at h
  cases htag : extractCustomElementTag node with
  | none =>
    rw [htag] at h
    exact absurd h (by simp)
  | some tag =>
    rw [htag] at h
    dsimp only at h
    by_cases hemp : tag = ""
    · rw [if_pos hemp] at h
      exact absurd h (by simp)
    · rw [if_neg hemp] at h
      have hkeep := attachMixinsGo_keep env (extractMixinNamesFromClass node) filePath
        (collectClassDocParts node) (collectClassDocParts node).methods cache
      have heta :
          ({ collectClassDocParts node with
              methods := (collectClassDocParts node).methods } : ClassDocParts)
            = collectClassDocParts node := rfl
      rw [heta] at hkeep
      rw [hkeep] at h
      have h1 := congrArg Prod.fst h
      dsimp only at h1
      injection h1 with h1
      subst h1
      exact ⟨rfl, rfl, rfl, rfl, rfl, rfl, rfl, rfl, rfl⟩

/-- Witness for C2 at a concrete component with one mixin contributing
a method and a property. -/
theorem C2_witness :
    dC2.methods = (collectClassDocParts compNodeEx).methods
    ∧ nonMethodAgree dC2
        (attachMixinsKeepGo envC2 (extractMixinNamesFromClass compNodeEx) "/c.ts"
          (collectClassDocParts compNodeEx) []).1 :=
  C2_attachment_discards_mixin_methods envC2 compNodeEx "/c.ts" [] dC2 cC2 (by decide)

/-! ## Termination of the mixin resolution (claim C1) -/

theorem countP_le_countP (l : List String) (p q : String → Bool)
    (h : ∀ x ∈ l, p x = true → q x = true) : l.countP p ≤ l.countP q := by
  induction l with
  | nil => simp
  | cons hd tl ih =>
    simp only [List.countP_cons]
    have hih := ih fun x hx => h x (List.mem_cons_of_mem _ hx)
    by_cases hp : p hd = true
    · rw [if_pos hp, if_pos (h hd (List.mem_cons_self _ _) hp)]
      omega
    · rw [if_neg hp]
      split <;> omega

theorem countP_notin_cons_lt (l : List String) (key : String) (keys : List String)
    (hk : key ∈ l) (hnk : key ∉ keys) :
    l.countP (fun k => decide (k ∉ key :: keys))
      < l.countP (fun k => decide (k ∉ keys)) := by
  induction l with
  | nil => exact absurd hk (List.not_mem_nil key)
  | cons hd tl ih =>
    simp only [List.countP_cons]
    have hmono := countP_le_countP tl (fun k => decide (k ∉ key :: keys))
      (fun k => decide (k ∉ keys))
      (fun x _ hx => by
        have := of_decide_eq_true hx
        exact decide_eq_true fun hm => this (List.mem_cons_of_mem _ hm))
    by_cases hhd : hd = key
    · subst hhd
      have e1 : (if decide (hd ∉ hd :: keys) = true then 1 else 0) = 0 := by simp
      have e2 : (if decide (hd ∉ keys) = true then 1 else 0) = 1 := by simp [hnk]
      rw [e1, e2]
      omega
    · have hk' : key ∈ tl := by
        rcases List.mem_cons.mp hk with h | h
        · exact absurd h.symm hhd
        · exact h
      have hstep : (if decide (hd ∉ key :: keys) = true then 1 else 0)
          ≤ if decide (hd ∉ keys) = true then 1 else 0 := by
        by_cases h1 : hd ∈ keys
        · have h2 : hd ∈ key :: keys := List.mem_cons_of_mem _ h1
          simp [h1, h2]
        · by_cases h0 : hd = key
          · simp [h0, h1]
          · have h2 : hd ∉ key :: keys := by
              intro hm
              rcases List.mem_cons.mp hm with h | h
              · exact h0 h
              · exact h1 h
            simp [h1, h2]
      have := ih hk'
      omega

theorem freeCount_cons_lt (env : Env) (keys : List String) (key : String)
    (hk : key ∈ allKeysList env) (hnk : key ∉ keys) :
    freeCount env (key :: keys) < freeCount env keys :=
  countP_notin_cons_lt _ key keys hk hnk

theorem freeCount_lt_bound (env : Env) (keys : List String) :
    freeCount env keys < resolutionBound env :=
  Nat.lt_succ_of_le (List.countP_le_length _)

theorem alookup_mem {α : Type} :
    ∀ (l : List (String × α)) (k : String) (v : α),
      alookup l k = some v → (k, v) ∈ l := by
  intro l
  induction l with
  | nil => intro k v h; simp [alookup] at h
  | cons hd tl ih =>
    rcases hd with ⟨k', v'⟩
    intro k v h
    simp only [alookup] at h
    by_cases he : k' = k
    · rw [if_pos he] at h
      injection h with h
      subst he; subst h
      exact List.mem_cons_self _ _
    · rw [if_neg he] at h
      exact List.mem_cons_of_mem _ (ih k v h)

theorem mkKey_mem_of_decl (env : Env) (filePath : String) (fileInfo : FileInfo)
    (mixinName : String) (declaration : MixinDeclaration)
    (he : alookup env filePath = some fileInfo)
    (hd : alookup fileInfo.declarations mixinName = some declaration) :
    mkKey filePath mixinName ∈ allKeysList env := by
  have h1 : (filePath, fileInfo) ∈ env := alookup_mem _ _ _ he
  have h2 : (mixinName, declaration) ∈ fileInfo.declarations := alookup_mem _ _ _ hd
  unfold allKeysList
  rw [List.mem_flatten]
  refine ⟨_, List.mem_map.mpr ⟨(filePath, fileInfo), h1, rfl⟩, ?_⟩
  rw [List.mem_append]
  exact Or.inl (List.mem_map.mpr ⟨(mixinName, declaration), h2, rfl⟩)

theorem mkKey_mem_of_imp (env : Env) (filePath : String) (fileInfo : FileInfo)
    (mixinName : String) (importRecord : ImportRecord)
    (he : alookup env filePath = some fileInfo)
    (hi : alookup fileInfo.imports mixinName = some importRecord) :
    mkKey filePath mixinName ∈ allKeysList env := by
  have h1 : (filePath, fileInfo) ∈ env := alookup_mem _ _ _ he
  have h2 : (mixinName, importRecord) ∈ fileInfo.imports := alookup_mem _ _ _ hi
  unfold allKeysList
  rw [List.mem_flatten]
  refine ⟨_, List.mem_map.mpr ⟨(filePath, fileInfo), h1, rfl⟩, ?_⟩
  rw [List.mem_append]
  exact Or.inr (List.mem_map.mpr ⟨(mixinName, importRecord), h2, rfl⟩)

theorem loopGo_congr (r1 r2 : String → List String → Cache → String → Option ClassDocParts × Cache)
    (names : List String) (filePath : String) (keys : List String)
    (h : ∀ n c fp, r1 n keys c fp = r2 n keys c fp) :
    ∀ docs cache, loopGo r1 names filePath keys docs cache
      = loopGo r2 names filePath keys docs cache := by
  induction names with
  | nil => intro docs cache; rfl
  | cons n rest ih =>
    intro docs cache
    simp only [loopGo, h n cache filePath]
    rcases r2 n keys cache filePath with ⟨docsOpt, c1⟩
    cases docsOpt <;> exact ih _ _

theorem buildDocsStep_congr (env : Env)
    (r1 r2 : String → List String → Cache → String → Option ClassDocParts × Cache)
    (declaration : MixinDeclaration) (keys : List String) (cache : Cache)
    (h : ∀ n c fp, r1 n keys c fp = r2 n keys c fp) :
    buildDocsStep env r1 declaration keys cache
      = buildDocsStep env r2 declaration keys cache := by
  unfold buildDocsStep
  cases ensureFileInfo env declaration.filePath with
  | none => rfl
  | some fi =>
    dsimp only
    cases declaration.docJsDoc <;> exact loopGo_congr r1 r2 _ _ keys h _ _

theorem resolveStep_congr (env : Env)
    (r1 r2 : String → List String → Cache → String → Option ClassDocParts × Cache)
    (mixinName : String) (keys : List String) (cache : Cache) (filePath : String)
    (h : ∀ n k c fp, freeCount env k < freeCount env keys → r1 n k c fp = r2 n k c fp) :
    resolveStep env r1 mixinName keys cache filePath
      = resolveStep env r2 mixinName keys cache filePath := by
  unfold resolveStep
  by_cases hname : mixinName = ""
  · rw [if_pos hname, if_pos hname]
  · rw [if_neg hname, if_neg hname]
    dsimp only
    rcases hc : alookup cache (mkKey filePath mixinName) with _ | cached
    · dsimp only
      by_cases hkeys : mkKey filePath mixinName ∈ keys
      · rw [if_pos hkeys, if_pos hkeys]
      · rw [if_neg hkeys, if_neg hkeys]
        rcases he : ensureFileInfo env filePath with _ | fileInfo
        · rfl
        · dsimp only
          rcases hdl : alookup fileInfo.declarations mixinName with _ | declaration
          · dsimp only
            rcases hi : alookup fileInfo.imports mixinName with _ | importRecord
            · rfl
            · dsimp only
              rcases hif : importRecord.filePath with _ | importedFile
              · rfl
              · dsimp only
                by_cases hns : importRecord.type = ImportKind.namespaceKind
                · rw [if_pos hns, if_pos hns]
                · rw [if_neg hns, if_neg hns]
                  have hlt := freeCount_cons_lt env keys _
                    (mkKey_mem_of_imp env filePath fileInfo mixinName importRecord he hi) hkeys
                  rw [h importRecord.exportName _ cache importedFile hlt]
          · dsimp only
            have hlt := freeCount_cons_lt env keys _
              (mkKey_mem_of_decl env filePath fileInfo mixinName declaration he hdl) hkeys
            rw [buildDocsStep_congr env r1 r2 declaration (mkKey filePath mixinName :: keys) cache
              (fun n c fp => h n _ c fp hlt)]
    · rfl

theorem resolveF_stab (env : Env) :
    ∀ (f g : Nat) (mixinName : String) (keys : List String) (cache : Cache) (filePath : String),
      freeCount env keys < f → freeCount env keys < g →
      resolveF env f mixinName keys cache filePath
        = resolveF env g mixinName keys cache filePath := by
  intro f
  induction f with
  | zero => intro g n k c fp hf _; exact absurd hf (Nat.not_lt_zero _)
  | succ f ih =>
    intro g n k c fp hf hg
    cases g with
    | zero => exact absurd hg (Nat.not_lt_zero _)
    | succ g =>
      show resolveStep env (resolveF env f) n k c fp = resolveStep env (resolveF env g) n k c fp
      apply resolveStep_congr
      intro n' k' c' fp' hlt
      exact ih g n' k' c' fp' (by omega) (by omega)

/-- Claim C1: the resolution of a composition graph with mutual
references terminates — any fuel above the strictly decreasing measure
gives the very answer `resolveMixinDocs` gives, so the recursion depth
is bounded and the original unbounded recursion is total; a key already
on the in-progress stack (and not cached) resolves to a no-contribution
`none` with the cache untouched; and on the concrete mutual pair
`A = B(Base)`, `B = A(Base)` the fragment of `A` terminates holding
each property exactly once, the cyclic edge contributing nothing. -/
theorem C1_mixin_cycle_terminates :
    (∀ (env : Env) (fuel : Nat) (mixinName : String) (keys : List String) (cache : Cache) (filePath : String),
        freeCount env keys < fuel →
        resolveF env fuel mixinName keys cache filePath
          = resolveMixinDocs env mixinName keys cache filePath)
    ∧ (∀ (env : Env) (mixinName : String) (keys : List String) (cache : Cache) (filePath : String),
        alookup cache (mkKey filePath mixinName) = none →
        mkKey filePath mixinName ∈ keys →
        resolveMixinDocs env mixinName keys cache filePath = (none, cache))
    ∧ ((resolveMixinDocs envMut "A" [] [] "/m.ts").1.map
         (fun d => d.properties.map PropertyDocs.name) = some ["pA", "pB"]) := by
  refine ⟨?_, ?_, by decide⟩
  · intro env fuel n k c fp hf
    exact resolveF_stab env fuel (resolutionBound env) n k c fp hf (freeCount_lt_bound env k)
  · intro env n k c fp hcache hkeys
    show resolveF env (resolutionBound env) n k c fp = (none, c)
    show resolveStep env (resolveF env (allKeysList env).length) n k c fp = (none, c)
    unfold resolveStep
    by_cases hname : n = ""
    · rw [if_pos hname]
    · rw [if_neg hname]
      dsimp only
      rw [hcache]
      dsimp only
      rw [if_pos hkeys]

/-- Witness for C1: ample fuel agrees with the official resolver on the
mutual-reference example, and a stacked key resolves to nothing. -/
theorem C1_witness :
    resolveF envMut 9 "A" [] [] "/m.ts" = resolveMixinDocs envMut "A" [] [] "/m.ts"
    ∧ resolveMixinDocs envMut "A" ["/m.ts::A"] [] "/m.ts" = (none, []) :=
  ⟨C1_mixin_cycle_terminates.1 envMut 9 "A" [] [] "/m.ts" (by decide),
   C1_mixin_cycle_terminates.2.1 envMut "A" ["/m.ts::A"] [] "/m.ts" (by decide) (by decide)⟩

/-! ## Claim C4: the recorded property type label -/

/-- Claim C4 (code bug): the type label recorded by `parseProperty`
follows only two of the four claimed precedence steps.  An explicit
annotation is recorded verbatim and the fallback is `any`, but an
undecorated-initializer property such as `@property() count = 42`
records `any`, not `number`, and a registration hint
`@property({ type: String })` is ignored as well: the inference and
normalisation functions live in `src/type-utils.ts` yet are imported
nowhere, as the last two conjuncts show they would have produced the
claimed labels. -/
theorem C4_property_type_precedence_bug :
    (parseProperty prop42Ex).map PropertyDocs.type = some "any"
    ∧ (parseProperty propHintEx).map PropertyDocs.type = some "any"
    ∧ (parseProperty propAnnEx).map PropertyDocs.type = some "string"
    ∧ inferTypeFromInitializer (.numLit "42") = some "number"
    ∧ normalizeDecoratorTypeName "String" = some "string" := by
  decide

/-! ## Claim C7: the recorded attribute name -/

/-- Claim C7 (code bug): an explicit string `attribute` option is
recorded verbatim and an unspecified one leads the renderer to
kebab-case the property name; but `attribute: false` is mapped by
`extractPropertyDecorator` to the same `undefined` as "unspecified"
(the two decorator forms are indistinguishable at the fact level), so
the renderer kebab-cases such a property too instead of suppressing its
attribute — the `null`-to-`--` suppression branch of the generator is
unreachable. -/
theorem C7_attribute_false_not_suppressed :
    (parseProperty propOverrideEx).map PropertyDocs.attr = some (some "data-custom")
    ∧ (parseProperty propPlainEx).map PropertyDocs.attr = some none
    ∧ (parseProperty propPlainEx).map attributeCell = some "`no-attribute-prop`"
    ∧ extractPropertyDecorator propNoAttrEx = extractPropertyDecorator propPlainEx
    ∧ (parseProperty propNoAttrEx).map attributeCell = some "`no-attribute-prop`"
    ∧ kebabCase "noAttributeProp" = "no-attribute-prop" := by
  decide

/-! ## Claim C8: event option flags -/

/-- Counterexample to C8 as stated: in
`new CustomEvent('evt', { bubbles: shouldBubble })` the flag
initializer is an identifier, not a boolean literal, yet the extracted
event options carry `bubbles = false` — the flag is set, not left
unset. -/
theorem C8_counterexample :
    evtNonLitEx.args.second?
        = some (.objLit (.oassign "bubbles" (.ident "shouldBubble") .onil))
    ∧ extractEventOptions evtNonLitEx
        = { bubbles := some false, composed := none, cancelable := none } := by
  decide

theorem eventOptionsGo_bubbles :
    ∀ (props : OProps) (acc : EventOptsInfo),
      (eventOptionsGo props acc).bubbles
        = match lastFlagAssign "bubbles" props with
          | some v => some (decide (getText v = "true"))
          | none => acc.bubbles
  | .onil, acc => rfl
  | .oassign n v tail, acc => by
    simp only [eventOptionsGo, lastFlagAssign]
    rw [eventOptionsGo_bubbles tail]
    cases lastFlagAssign "bubbles" tail with
    | some r => rfl
    | none =>
      by_cases hb : n = "bubbles"
      · simp [hb]
      · by_cases hcp : n = "composed"
        · simp [hb, hcp]
        · by_cases hcc : n = "cancelable"
          · simp [hb, hcp, hcc]
          · simp [hb, hcp, hcc]
  | .oother tail, acc => by
    simp only [eventOptionsGo, lastFlagAssign]
    exact eventOptionsGo_bubbles tail acc

theorem eventOptionsGo_composed :
    ∀ (props : OProps) (acc : EventOptsInfo),
      (eventOptionsGo props acc).composed
        = match lastFlagAssign "composed" props with
          | some v => some (decide (getText v = "true"))
          | none => acc.composed
  | .onil, acc => rfl
  | .oassign n v tail, acc => by
    simp only [eventOptionsGo, lastFlagAssign]
    rw [eventOptionsGo_composed tail]
    cases lastFlagAssign "composed" tail with
    | some r => rfl
    | none =>
      by_cases hb : n = "bubbles"
      · simp [hb]
      · by_cases hcp : n = "composed"
        · simp [hb, hcp]
        · by_cases hcc : n = "cancelable"
          · simp [hb, hcp, hcc]
          · simp [hb, hcp, hcc]
  | .oother tail, acc => by
    simp only [eventOptionsGo, lastFlagAssign]
    exact eventOptionsGo_composed tail acc

theorem eventOptionsGo_cancelable :
    ∀ (props : OProps) (acc : EventOptsInfo),
      (eventOptionsGo props acc).cancelable
        = match lastFlagAssign "cancelable" props with
          | some v => some (decide (getText v = "true"))
          | none => acc.cancelable
  | .onil, acc => rfl
  | .oassign n v tail, acc => by
    simp only [eventOptionsGo, lastFlagAssign]
    rw [eventOptionsGo_cancelable tail]
    cases lastFlagAssign "cancelable" tail with
    | some r => rfl
    | none =>
      by_cases hb : n = "bubbles"
      · simp [hb]
      · by_cases hcp : n = "composed"
        · simp [hb, hcp]
        · by_cases hcc : n = "cancelable"
          · simp [hb, hcp, hcc]
          · simp [hb, hcp, hcc]
  | .oother tail, acc => by
    simp only [eventOptionsGo, lastFlagAssign]
    exact eventOptionsGo_cancelable tail acc

/-- Claim C8, amended: each of the three flags is set exactly when the
second object-literal constructor argument holds a property assignment
with that name; the recorded value is `true` when the source text of
the (last such) initializer is exactly `true`, and `false` for every
other initializer — the literal `false` and arbitrary expression forms
alike.  A flag is left unset only when no assignment with its name
exists (in particular when the second argument is absent or not an
object literal). -/
theorem C8_event_flags_amended (node : NewEvt) :
    ((extractEventOptions node).bubbles
        = (flagSource node "bubbles").map fun v => decide (getText v = "true"))
    ∧ ((extractEventOptions node).composed
        = (flagSource node "composed").map fun v => decide (getText v = "true"))
    ∧ ((extractEventOptions node).cancelable
        = (flagSource node "cancelable").map fun v => decide (getText v = "true")) := by
  unfold extractEventOptions flagSource
  rcases node.args.second? with _ | arg
  · exact ⟨rfl, rfl, rfl⟩
  · cases arg with
    | objLit props =>
      dsimp only
      refine ⟨?_, ?_, ?_⟩
      · rw [eventOptionsGo_bubbles]
        cases lastFlagAssign "bubbles" props <;> rfl
      · rw [eventOptionsGo_composed]
        cases lastFlagAssign "composed" props <;> rfl
      · rw [eventOptionsGo_cancelable]
        cases lastFlagAssign "cancelable" props <;> rfl
    | ident n => exact ⟨rfl, rfl, rfl⟩
    | propAcc t => exact ⟨rfl, rfl, rfl⟩
    | strLit s => exact ⟨rfl, rfl, rfl⟩
    | templateLit s => exact ⟨rfl, rfl, rfl⟩
    | numLit t => exact ⟨rfl, rfl, rfl⟩
    | boolLit b => exact ⟨rfl, rfl, rfl⟩
    | nullLit => exact ⟨rfl, rfl, rfl⟩
    | arrayLit t => exact ⟨rfl, rfl, rfl⟩
    | preMinusNum t => exact ⟨rfl, rfl, rfl⟩
    | callE c a => exact ⟨rfl, rfl, rfl⟩
    | asE e ty => exact ⟨rfl, rfl, rfl⟩
    | parenE e => exact ⟨rfl, rfl, rfl⟩
    | otherE t => exact ⟨rfl, rfl, rfl⟩

/-! ## Lemmas about `parseClassDeclaration` and the entry traversal -/

theorem parseClassDeclaration_none (env : Env) (node : ClassDecl)
    (filePath : String) (cache : Cache)
    (h : extractCustomElementTag node = none) :
    parseClassDeclaration env node filePath cache = (none, cache) := by
  unfold parseClassDeclaration
  rw [h]

/-- The falsiness of the `if (!tagName)` guard: a component record
comes out exactly when the extracted tag is present and non-empty. -/
theorem parseClassDeclaration_isSome (env : Env) (node : ClassDecl)
    (filePath : String) (cache : Cache) :
    (parseClassDeclaration env node filePath cache).1.isSome
      = descTruthy (extractCustomElementTag node) := by
  unfold parseClassDeclaration
  cases extractCustomElementTag node with
  | none => rfl
  | some tag =>
    dsimp only
    by_cases hemp : tag = ""
    · rw [if_pos hemp]
      simp [descTruthy, hemp]
    · rw [if_neg hemp]
      simp [descTruthy, hemp]

theorem parseClassDeclaration_fields (env : Env) (node : ClassDecl)
    (filePath : String) (cache : Cache) (d : LitComponentDocs)
    (h : (parseClassDeclaration env node filePath cache).1 = some d) :
    d.className = node.name.getD "Unknown"
    ∧ extractCustomElementTag node = some d.tagName := by
  unfold parseClassDeclaration at h
  cases htag : extractCustomElementTag node with
  | none =>
    rw [htag] at h
    exact absurd h (by simp)
  | some tag =>
    rw [htag] at h
    dsimp only at h
    by_cases hemp : tag = ""
    · rw [if_pos hemp] at h
      exact absurd h (by simp)
    · rw [if_neg hemp] at h
      dsimp only at h
      injection h with h
      subst h
      exact ⟨rfl, rfl⟩

theorem visitGo_spec (env : Env) (filePath : String) :
    ∀ (classes : List ClassDecl) (acc : Option LitComponentDocs) (cache : Cache),
      (matchingClasses classes = [] →
        (visitGo env filePath classes acc cache).1 = acc)
      ∧ (∀ cl, (matchingClasses classes).getLast? = some cl →
          ∃ cache', (visitGo env filePath classes acc cache).1
            = (parseClassDeclaration env cl filePath cache').1) := by
  intro classes
  induction classes with
  | nil =>
    intro acc cache
    exact ⟨fun _ => rfl, fun cl h => by simp [matchingClasses] at h⟩
  | cons node rest ih =>
    intro acc cache
    by_cases hcond : (node.name.isSome && extendsLitElement node) = true
    · have hm : matchingClasses (node :: rest) = node :: matchingClasses rest := by
        simp [matchingClasses, List.filter_cons, hcond]
      have hv : visitGo env filePath (node :: rest) acc cache
          = visitGo env filePath rest
              (parseClassDeclaration env node filePath cache).1
              (parseClassDeclaration env node filePath cache).2 := by
        simp only [visitGo, hcond, if_pos]
      rw [hm, hv]
      constructor
      · intro hemp
        exact absurd hemp (List.cons_ne_nil _ _)
      · intro cl hlast
        cases hrest : matchingClasses rest with
        | nil =>
          rw [hrest] at hlast
          have hcl : node = cl := by simpa using hlast
          subst hcl
          exact ⟨cache, (ih _ _).1 hrest⟩
        | cons x xs =>
          rw [hrest, List.getLast?_cons_cons, ← hrest] at hlast
          exact (ih _ _).2 cl hlast
    · have hm : matchingClasses (node :: rest) = matchingClasses rest := by
        simp only [matchingClasses, List.filter_cons]
        rw [if_neg hcond]
      have hv : visitGo env filePath (node :: rest) acc cache
          = visitGo env filePath rest acc cache := by
        simp only [visitGo]
        rw [if_neg hcond]
      rw [hm, hv]
      exact ih acc cache

theorem visitGo_all_none (env : Env) (filePath : String) :
    ∀ (classes : List ClassDecl) (cache : Cache),
      (∀ cl ∈ classes, extractCustomElementTag cl = none) →
      (visitGo env filePath classes none cache).1 = none := by
  intro classes
  induction classes with
  | nil => intro cache _; rfl
  | cons node rest ih =>
    intro cache hall
    by_cases hcond : (node.name.isSome && extendsLitElement node) = true
    · have hv : visitGo env filePath (node :: rest) none cache
          = visitGo env filePath rest
              (parseClassDeclaration env node filePath cache).1
              (parseClassDeclaration env node filePath cache).2 := by
        simp only [visitGo, hcond, if_pos]
      rw [hv, parseClassDeclaration_none env node filePath cache
        (hall node (List.mem_cons_self _ _))]
      exact ih _ fun cl hcl => hall cl (List.mem_cons_of_mem _ hcl)
    · have hv : visitGo env filePath (node :: rest) none cache
          = visitGo env filePath rest none cache := by
        simp only [visitGo]
        rw [if_neg hcond]
      rw [hv]
      exact ih _ fun cl hcl => hall cl (List.mem_cons_of_mem _ hcl)

/-! ## Claim C5: missing registration annotation -/

/-- Claim C5: a matched class carrying no `customElement` decorator
with a string-literal tag makes `parseClassDeclaration` return null
with the cache untouched (the embedding is total, so nothing can be
thrown); a non-null component record always carries the tag extracted
from the annotation; and when no class of the file carries a
registration annotation the whole `parseLitComponent` call returns
null. -/
theorem C5_no_registration_returns_null (env : Env) (node : ClassDecl)
    (filePath : String) (cache : Cache) :
    (extractCustomElementTag node = none →
      parseClassDeclaration env node filePath cache = (none, cache))
    ∧ (∀ d, (parseClassDeclaration env node filePath cache).1 = some d →
        extractCustomElementTag node = some d.tagName)
    ∧ (∀ sf : SourceFileModel,
        (∀ cl ∈ sf.classes, extractCustomElementTag cl = none) →
        parseLitComponent env filePath sf = none) := by
  refine ⟨parseClassDeclaration_none env node filePath cache, ?_, ?_⟩
  · intro d hd
    exact (parseClassDeclaration_fields env node filePath cache d hd).2
  · intro sf hall
    exact visitGo_all_none env filePath sf.classes [] hall

/-- Witness for C5: the undecorated class resolves to null, and the
decorated component record carries its annotation tag. -/
theorem C5_witness :
    parseClassDeclaration envC2 badNodeEx "/c.ts" [] = (none, [])
    ∧ extractCustomElementTag compNodeEx = some dC2.tagName :=
  ⟨(C5_no_registration_returns_null envC2 badNodeEx "/c.ts" []).1 (by decide),
   (C5_no_registration_returns_null envC2 compNodeEx "/c.ts" []).2.1 dC2 (by decide)⟩

/-! ## Claim C9: the last matching class wins -/

/-- Claim C9: `parseLitComponent` returns the result of
`parseClassDeclaration` for the last class (in document order) whose
extends clause matches, every later match overwriting the earlier
result — the call yields a record exactly when the last match carries a
truthy (present and non-empty) registration tag, so with a valid
component followed by a matching class without a registration decorator
the whole call returns null even though the earlier class alone yields
a component record. -/
theorem C9_last_matching_class_wins (env : Env) (filePath : String)
    (sf : SourceFileModel) :
    (matchingClasses sf.classes = [] → parseLitComponent env filePath sf = none)
    ∧ (∀ cl, (matchingClasses sf.classes).getLast? = some cl →
        ((parseLitComponent env filePath sf).isSome
            = descTruthy (extractCustomElementTag cl))
        ∧ (∀ d, parseLitComponent env filePath sf = some d →
            d.className = cl.name.getD "Unknown"
            ∧ extractCustomElementTag cl = some d.tagName))
    ∧ (parseLitComponent envC2 "/c.ts" sfGoodThenBad = none
        ∧ (parseClassDeclaration envC2 compNodeEx "/c.ts" []).1.isSome = true) := by
  refine ⟨?_, ?_, by decide⟩
  · intro h
    exact (visitGo_spec env filePath sf.classes none []).1 h
  · intro cl hlast
    obtain ⟨cache', hv⟩ := (visitGo_spec env filePath sf.classes none []).2 cl hlast
    have hpl : parseLitComponent env filePath sf
        = (parseClassDeclaration env cl filePath cache').1 := hv
    constructor
    · rw [hpl]
      exact parseClassDeclaration_isSome env cl filePath cache'
    · intro d hd
      rw [hpl] at hd
      exact parseClassDeclaration_fields env cl filePath cache' d hd

/-- Witness for C9: on the concrete file the last matching class is the
undecorated one and the whole call mirrors its missing tag. -/
theorem C9_witness :
    (parseLitComponent envC2 "/c.ts" sfGoodThenBad).isSome
      = descTruthy (extractCustomElementTag badNodeEx) :=
  ((C9_last_matching_class_wins envC2 "/c.ts" sfGoodThenBad).2.1 badNodeEx (by decide)).1

/-! ## Claim C6: import path resolution -/

theorem findIndexFile_mem (fs : FSModel) (candidate : String) :
    ∀ (exts : List String) (p : String),
      findIndexFile fs candidate exts = some p → p ∈ fs.files := by
  intro exts
  induction exts with
  | nil => intro p h; simp [findIndexFile] at h
  | cons ext rest ih =>
    intro p h
    unfold findIndexFile at h
    dsimp only at h
    by_cases hf : isFileM fs (resolvePathFrom candidate ("index" ++ ext)) = true
    · rw [if_pos hf] at h
      injection h with h
      subst h
      exact of_decide_eq_true hf
    · rw [if_neg hf] at h
      exact ih p h

theorem tryResolveGo_mem (fs : FSModel) :
    ∀ (l : List String) (p : String),
      tryResolveGo fs l = some p → p ∈ fs.files := by
  intro l
  induction l with
  | nil => intro p h; simp [tryResolveGo] at h
  | cons candidate rest ih =>
    intro p h
    unfold tryResolveGo at h
    by_cases hex : existsSyncM fs candidate = true
    · rw [if_neg (by simp [hex])] at h
      by_cases hf : isFileM fs candidate = true
      · rw [if_pos hf] at h
        injection h with h
        subst h
        exact of_decide_eq_true hf
      · rw [if_neg hf] at h
        by_cases hd : isDirM fs candidate = true
        · rw [if_pos hd] at h
          cases hidx : findIndexFile fs candidate extensionPriority with
          | some idx =>
            rw [hidx] at h
            dsimp only at h
            injection h with h
            subst h
            exact findIndexFile_mem fs candidate extensionPriority _ hidx
          | none =>
            rw [hidx] at h
            dsimp only at h
            exact ih p h
        · rw [if_neg hd] at h
          exact ih p h
    · rw [if_pos hex] at h
      exact ih p h

theorem tryResolveFile_mem (fs : FSModel) (basePath p : String)
    (h : tryResolveFile fs basePath = some p) : p ∈ fs.files :=
  tryResolveGo_mem fs _ p h

theorem resolveImportPath_mem (fs : FSModel) (specifier fromFile p : String)
    (h : resolveImportPath fs specifier fromFile = some p) : p ∈ fs.files := by
  unfold resolveImportPath at h
  by_cases hbare : ¬ strStarts specifier "." ∧ ¬ strStarts specifier "/"
  · rw [if_pos hbare] at h
    exact absurd h (by simp)
  · rw [if_neg hbare] at h
    dsimp only at h
    cases hd : tryResolveFile fs
        (if strStarts specifier "." then resolvePathFrom (dirnameP fromFile) specifier
         else resolveAbs specifier) with
    | some r =>
      rw [hd] at h
      dsimp only at h
      injection h with h
      subst h
      exact tryResolveFile_mem fs _ _ hd
    | none =>
      rw [hd] at h
      dsimp only at h
      by_cases hfb : basenameP specifier ≠ ""
      · rw [if_pos hfb] at h
        exact tryResolveFile_mem fs _ _ h
      · rw [if_neg hfb] at h
        exact absurd h (by simp)

theorem tryResolveGo_skip (fs : FSModel) (candidate : String) (rest : List String)
    (h : existsSyncM fs candidate = false) :
    tryResolveGo fs (candidate :: rest) = tryResolveGo fs rest := by
  conv_lhs => rw [tryResolveGo]
  rw [if_pos (by simp [h])]

theorem findIndexFile_hit (fs : FSModel) (candidate ext : String) (rest : List String)
    (h : isFileM fs (resolvePathFrom candidate ("index" ++ ext)) = true) :
    findIndexFile fs candidate (ext :: rest)
      = some (resolvePathFrom candidate ("index" ++ ext)) := by
  unfold findIndexFile
  dsimp only
  rw [if_pos h]

theorem candidatesFor_head (basePath : String) :
    ∃ rest, candidatesFor basePath = basePath :: rest := by
  unfold candidatesFor
  dsimp only
  by_cases h1 : ¬ hasRecognizedExt basePath = true
  · rw [if_pos h1]
    exact ⟨_, rfl⟩
  · rw [if_neg h1]
    by_cases h2 : (currentExtOf basePath).getD "" ∈ jsExtensions
    · rw [if_pos h2]
      exact ⟨_, rfl⟩
    · rw [if_neg h2]
      by_cases h3 : (currentExtOf basePath).getD "" ∈ tsExtensions
      · rw [if_pos h3]
        exact ⟨_, rfl⟩
      · rw [if_neg h3]
        exact ⟨_, rfl⟩

theorem tryResolveGo_file (fs : FSModel) (candidate : String) (rest : List String)
    (h : isFileM fs candidate = true) :
    tryResolveGo fs (candidate :: rest) = some candidate := by
  have hex : existsSyncM fs candidate = true :=
    decide_eq_true (Or.inl (of_decide_eq_true h))
  unfold tryResolveGo
  rw [if_neg (by simp [hex]), if_pos h]

theorem tryResolveGo_dir_index (fs : FSModel) (candidate : String)
    (rest : List String) (idx : String)
    (hnf : isFileM fs candidate = false) (hdir : isDirM fs candidate = true)
    (hidx : findIndexFile fs candidate extensionPriority = some idx) :
    tryResolveGo fs (candidate :: rest) = some idx := by
  have hex : existsSyncM fs candidate = true :=
    decide_eq_true (Or.inr (of_decide_eq_true hdir))
  unfold tryResolveGo
  rw [if_neg (by simp [hex]), if_neg (by simp [hnf]), if_pos hdir, hidx]

/-- Counterexample to C6 as stated: with both `/a/foo.ts` and a
directory `/a/foo` holding an index file present, the specifier
`./foo` resolves to the directory index, not to `/a/foo.ts` — the
literal path is probed before the extension variants. -/
theorem C6_counterexample :
    "/a/foo.ts" ∈ fsBoth.files
    ∧ resolveImportPath fsBoth "./foo" "/a/main.ts" = some "/a/foo/index.ts" := by
  decide

/-- Claim C6, amended: a bare specifier (no leading `.` or `/`) always
resolves to null; any non-null resolution is a regular file of the file
system, so with no matching file anywhere the result is null and the
total embedding can never throw; and for `./foo`-style specifiers the
literal resolved path is probed first — `./foo.ts` wins only when the
literal path itself does not exist, while a directory at the literal
path holding an index file wins over `./foo.ts`. -/
theorem C6_import_resolution_amended (fs : FSModel) (specifier fromFile : String) :
    (strStarts specifier "." = false → strStarts specifier "/" = false →
      resolveImportPath fs specifier fromFile = none)
    ∧ (∀ p, resolveImportPath fs specifier fromFile = some p → p ∈ fs.files)
    ∧ (fs.files = [] → resolveImportPath fs specifier fromFile = none)
    ∧ (strStarts specifier "." = true →
        existsSyncM fs (resolvePathFrom (dirnameP fromFile) specifier) = false →
        hasRecognizedExt (resolvePathFrom (dirnameP fromFile) specifier) = false →
        isFileM fs (resolvePathFrom (dirnameP fromFile) specifier ++ ".ts") = true →
        resolveImportPath fs specifier fromFile
          = some (resolvePathFrom (dirnameP fromFile) specifier ++ ".ts"))
    ∧ (strStarts specifier "." = true →
        isFileM fs (resolvePathFrom (dirnameP fromFile) specifier) = false →
        isDirM fs (resolvePathFrom (dirnameP fromFile) specifier) = true →
        isFileM fs (resolvePathFrom (resolvePathFrom (dirnameP fromFile) specifier)
          ("index" ++ ".ts")) = true →
        resolveImportPath fs specifier fromFile
          = some (resolvePathFrom (resolvePathFrom (dirnameP fromFile) specifier)
              ("index" ++ ".ts"))) := by
  refine ⟨?_, resolveImportPath_mem fs specifier fromFile, ?_, ?_, ?_⟩
  · intro h1 h2
    unfold resolveImportPath
    rw [if_pos ⟨by simp [h1], by simp [h2]⟩]
  · intro hemp
    cases hres : resolveImportPath fs specifier fromFile with
    | none => rfl
    | some p =>
      have := resolveImportPath_mem fs specifier fromFile p hres
      rw [hemp] at this
      exact absurd this (List.not_mem_nil p)
  · intro hdot hne hrec hts
    have hcand : candidatesFor (resolvePathFrom (dirnameP fromFile) specifier)
        = resolvePathFrom (dirnameP fromFile) specifier
          :: extensionPriority.map (fun ext => resolvePathFrom (dirnameP fromFile) specifier ++ ext) := by
      unfold candidatesFor
      dsimp only
      rw [if_pos (by simp [hrec])]
    have htry : tryResolveFile fs (resolvePathFrom (dirnameP fromFile) specifier)
        = some (resolvePathFrom (dirnameP fromFile) specifier ++ ".ts") := by
      unfold tryResolveFile
      rw [hcand, tryResolveGo_skip fs _ _ hne]
      exact tryResolveGo_file fs _ _ hts
    unfold resolveImportPath
    rw [if_neg (fun hcon => hcon.1 hdot)]
    dsimp only
    rw [if_pos hdot, htry]
  · intro hdot hnf hdir hidx
    have hfind : findIndexFile fs (resolvePathFrom (dirnameP fromFile) specifier)
        extensionPriority
        = some (resolvePathFrom (resolvePathFrom (dirnameP fromFile) specifier)
            ("index" ++ ".ts")) :=
      findIndexFile_hit fs _ ".ts" _ hidx
    have htry : tryResolveFile fs (resolvePathFrom (dirnameP fromFile) specifier)
        = some (resolvePathFrom (resolvePathFrom (dirnameP fromFile) specifier)
            ("index" ++ ".ts")) := by
      obtain ⟨rest, hcand⟩ := candidatesFor_head (resolvePathFrom (dirnameP fromFile) specifier)
      unfold tryResolveFile
      rw [hcand]
      exact tryResolveGo_dir_index fs _ rest _ hnf hdir hfind
    unfold resolveImportPath
    rw [if_neg (fun hcon => hcon.1 hdot)]
    dsimp only
    rw [if_pos hdot, htry]

/-- Witness for C6 at concrete file systems: `.ts` wins when the
literal path is absent, the directory index wins when only it exists,
and a bare specifier resolves to null. -/
theorem C6_witness :
    resolveImportPath fsOnlyTs "./foo" "/a/main.ts"
      = some (resolvePathFrom (dirnameP "/a/main.ts") "./foo" ++ ".ts")
    ∧ resolveImportPath fsOnlyIdx "./foo" "/a/main.ts"
      = some (resolvePathFrom (resolvePathFrom (dirnameP "/a/main.ts") "./foo") ("index" ++ ".ts"))
    ∧ resolveImportPath fsBoth "lit" "/a/main.ts" = none :=
  ⟨(C6_import_resolution_amended fsOnlyTs "./foo" "/a/main.ts").2.2.2.1
      (by decide) (by decide) (by decide) (by decide),
   (C6_import_resolution_amended fsOnlyIdx "./foo" "/a/main.ts").2.2.2.2
      (by decide) (by decide) (by decide) (by decide),
   (C6_import_resolution_amended fsBoth "lit" "/a/main.ts").1 (by decide) (by decide)⟩

/-! ## Claim C10: the LitElement heritage test -/

/-- Claim C10: a class counts as extending the framework base class
exactly when the printed text of some expression in its extends clause
contains `LitElement` as a substring — the separate equality test in
the source is subsumed by the substring test.  A wrapper call such as
`withFancy(LitElement)` qualifies, and so does an unrelated base
`MyLitElementLookalike`, while `HTMLElement` does not. -/
theorem C10_extends_substring_match (node : ClassDecl) :
    (extendsLitElement node = true
      ↔ ∃ ty ∈ node.heritage, "LitElement".data <:+: (getText ty).data)
    ∧ extendsLitElement wrapperNodeEx = true
    ∧ extendsLitElement lookalikeNodeEx = true
    ∧ extendsLitElement plainNodeEx = false := by
  refine ⟨?_, by decide, by decide, by decide⟩
  unfold extendsLitElement
  rw [List.any_eq_true]
  constructor
  · rintro ⟨ty, hty, hcond⟩
    refine ⟨ty, hty, ?_⟩
    rcases of_decide_eq_true hcond with heq | hsub
    · rw [heq]
    · exact of_decide_eq_true hsub
  · rintro ⟨ty, hty, hinf⟩
    exact ⟨ty, hty, decide_eq_true (Or.inr (decide_eq_true hinf))⟩

/-- Witness for C10 at the wrapper-call example. -/
theorem C10_witness :
    extendsLitElement wrapperNodeEx = true :=
  (C10_extends_substring_match wrapperNodeEx).2.1

end LitDocs
